import Mathlib

/-!
# getopt-cpp: the argument dispatcher of `include/getopt.hpp`

A shallow embedding of `argparser::argparser` (class in namespace `argparser`)
and of `argument_required_exception`.

* Handlers (`callback_t`) are values of an arbitrary type `H`; calling a
  handler appends the pair (handler, argument) to the list `calls` of the scan
  state, so the order and the arguments of all invocations are observable.
* `std::unordered_map<std::string, arg_options>` is a list of entries with
  `find` and `emplace`; `emplace` does not touch a key that is present.
* Iterators into `args_` and `positionals_` are offsets from `begin()`;
  `end()` is the length.  Dereferencing an offset outside the vector has no
  defined result (`none`).
* The loop of `operator()` is embedded twice: for handlers that always return
  (`body`, `loop`, `run`), and for handlers that can throw (`body_t`, `loop_t`,
  `run_t`); the second is related to the first by simulation.
* `plain_passes`, `values_taken` and `discarded` count passes of the loop; they
  observe the embedding and are not part of the program.
-/

namespace getopt

/-- The exception thrown for a required argument that is missing. -/
structure argument_required_exception where
  exception_message : String
deriving DecidableEq, Repr

/-- The constructor `argument_required_exception(option_name)`. -/
def argument_required_exception.ctor (option_name : String) : argument_required_exception :=
  { exception_message := "Option `" ++ option_name ++ "` requires an argument, but none is given." }

/-- The method `what()`. -/
def argument_required_exception.what (e : argument_required_exception) : String :=
  e.exception_message

/-- The enum `arg_type_t`. -/
inductive arg_type_t where
  | no_argument
  | required_argument
  | optional_argument
deriving DecidableEq, Repr

/-- The struct `arg_options`. -/
structure arg_options (H : Type) where
  handler : H
  arg_type : arg_type_t
deriving DecidableEq, Repr

/-- The entries of a `std::unordered_map<std::string, arg_options>`. -/
abbrev options_map (H : Type) := List (String × arg_options H)

/-- The lookup `options_.find(key)`: `none` stands for `options_.end()`. -/
def options_map.find {H : Type} : options_map H → String → Option (arg_options H)
  | [], _ => none
  | (k, v) :: rest, key => if k = key then some v else options_map.find rest key

/-- The insertion `options_.emplace(std::make_pair(key, v))`: nothing is inserted
when the key is already present. -/
def options_map.emplace {H : Type} (m : options_map H) (key : String) (v : arg_options H) :
    options_map H :=
  match m.find key with
  | some _ => m
  | none => m ++ [(key, v)]

/-- The private data members of class `argparser`. -/
structure argparser (H : Type) where
  args_ : List String
  positionals_ : List H
  current_positional_ : Nat
  options_ : options_map H
deriving DecidableEq, Repr

/-- The method `reg(options, arg_type, handler)`. -/
def argparser.reg {H : Type} (p : argparser H) (options : List String) (arg_type : arg_type_t)
    (handler : H) : argparser H :=
  { p with
    options_ := options.foldl
      (fun m opt => options_map.emplace m opt { handler := handler, arg_type := arg_type })
      p.options_ }

/-- The method `pos(handler)`. -/
def argparser.pos {H : Type} (p : argparser H) (handler : H) : argparser H :=
  { p with positionals_ := p.positionals_ ++ [handler] }

/-- The state of a scan: the local iterator `arg`, the member `current_positional_`, and
the handler invocations made so far, oldest first. -/
structure scan_state (H : Type) where
  arg : Nat
  current_positional_ : Nat
  calls : List (H × String)
deriving DecidableEq, Repr

/-- The call `handler(value)`. -/
def scan_state.invoke {H : Type} (s : scan_state H) (handler : H) (value : String) :
    scan_state H :=
  { s with calls := s.calls ++ [(handler, value)] }

/-- What one pass through the body of the `while` loop ends in: it reaches the loop test
again in state `s`, or it throws. -/
inductive step_result (H : Type) where
  | next (s : scan_state H)
  | thrown (e : argument_required_exception)
deriving DecidableEq, Repr

/-- The closing `++arg` of the loop body; a pass that threw never reaches it. -/
def step_result.incr_arg {H : Type} : step_result H → step_result H
  | .next s => .next { s with arg := s.arg + 1 }
  | .thrown e => .thrown e

/-- The `if` branch of the loop body, taken when `options_.find(*arg)` found `opt`:
the `switch (opt.arg_type)`. Here `tok` is `*arg` on entry. -/
def argparser.option_case {H : Type} (p : argparser H) (s : scan_state H) (tok : String)
    (opt : arg_options H) : Option (step_result H) :=
  match opt.arg_type with
  | .no_argument => some (.next (s.invoke opt.handler ""))
  | .required_argument =>
    if s.arg + 1 ≠ p.args_.length then
      match p.args_[s.arg + 1]? with
      | none => none
      | some value => some (.next ({ s with arg := s.arg + 1 }.invoke opt.handler value))
    else
      some (.thrown (argument_required_exception.ctor tok))
  | .optional_argument =>
    if s.arg + 1 ≠ p.args_.length then
      match p.args_[s.arg + 1]? with
      | none => none
      | some value =>
        match p.options_.find value with
        | none => some (.next ({ s with arg := s.arg + 1 }.invoke opt.handler value))
        | some _ => some (.next (s.invoke opt.handler ""))
    else
      some (.next (s.invoke opt.handler ""))

/-- The `else` branch of the loop body, taken when `*arg`, here `tok`, is no registered
name. -/
def argparser.positional_case {H : Type} (p : argparser H) (s : scan_state H) (tok : String) :
    Option (step_result H) :=
  if s.current_positional_ ≠ p.positionals_.length then
    match p.positionals_[s.current_positional_]? with
    | none => none
    | some handler =>
      some (.next { s.invoke handler tok with current_positional_ := s.current_positional_ + 1 })
  else
    some (.next s)

/-- The body of the `while` loop of `operator()`. -/
def argparser.body {H : Type} (p : argparser H) (s : scan_state H) : Option (step_result H) :=
  match p.args_[s.arg]? with
  | none => none
  | some tok =>
    (match p.options_.find tok with
      | some opt => p.option_case s tok opt
      | none => p.positional_case s tok).map step_result.incr_arg

/-- How a scan ends: the loop is left normally, or the exception leaves `operator()`. -/
inductive outcome where
  | done
  | thrown (e : argument_required_exception)
deriving DecidableEq, Repr

/-- The state in which a scan ends, and how. -/
structure scan_result (H : Type) where
  state : scan_state H
  outcome : outcome
deriving DecidableEq, Repr

/-- The `while (arg != args_.end())` loop, run for at most `fuel` passes; `none` when
the passes do not suffice or a pass has no defined result. -/
def argparser.loop {H : Type} (p : argparser H) : Nat → scan_state H → Option (scan_result H)
  | fuel, s =>
    if s.arg ≠ p.args_.length then
      match fuel with
      | 0 => none
      | fuel + 1 =>
        match p.body s with
        | none => none
        | some (.next s') => argparser.loop p fuel s'
        | some (.thrown e) => some { state := s, outcome := .thrown e }
    else
      some { state := s, outcome := .done }

/-- The state at the first loop test of `operator()`: both iterators at `begin()`. -/
def argparser.entry {H : Type} (_p : argparser H) : scan_state H :=
  { arg := 0, current_positional_ := 0, calls := [] }

/-- The method `operator()`. One pass per token suffices, as every pass advances `arg`. -/
def argparser.run {H : Type} (p : argparser H) : Option (scan_result H) :=
  p.loop p.args_.length p.entry

/-- The dispatcher a scan leaves behind: `current_positional_` is the only member written. -/
def argparser.after {H : Type} (p : argparser H) (r : scan_result H) : argparser H :=
  { p with current_positional_ := r.state.current_positional_ }

/-- The dispatcher as constructed for the tokens `argv[1]`, `argv[2]`, ..., before any
registration. -/
def argparser.of_tokens (H : Type) (tokens : List String) : argparser H :=
  { args_ := tokens, positionals_ := [], current_positional_ := 0, options_ := [] }

/-- The state after `n` passes through the loop body from `s`, when each of them reached
the loop test again. -/
def argparser.iterate {H : Type} (p : argparser H) : Nat → scan_state H → Option (scan_state H)
  | 0, s => some s
  | n + 1, s =>
    if s.arg ≠ p.args_.length then
      match p.body s with
      | some (.next s') => argparser.iterate p n s'
      | _ => none
    else
      none

/-- The `for` loop of the constructor, `for (i = 1; i < n; ++i) args_.push_back(argv[i])`,
with `left` passes to go, which is `n - i`. Reading `argv` outside the vector has no defined
result. -/
def argparser.ctor_loop (argv : List String) : Nat → Nat → List String → Option (List String)
  | 0, _, args => some args
  | left + 1, i, args =>
    match argv[i]? with
    | none => none
    | some a => argparser.ctor_loop argv left (i + 1) (args ++ [a])

/-- The constructor `argparser(argc, argv)`. The `int` is cast to a `std::size_t` of 64
bits; `reserve` does not change the contents of `args_`. The other members are
default-constructed: the vectors and the map are empty, and the iterator is taken as
`begin()`. -/
def argparser.ctor (H : Type) (argc : Int) (argv : List String) : Option (argparser H) :=
  let n : Nat := (argc % 2 ^ 64).toNat
  (argparser.ctor_loop argv (n - 1) 1 []).map fun args =>
    { args_ := args, positionals_ := [], current_positional_ := 0, options_ := [] }

/-- Among the first `n` passes from `s`, the number of those whose token `*arg` is no
registered name. -/
def argparser.plain_passes {H : Type} (p : argparser H) : Nat → scan_state H → Nat
  | 0, _ => 0
  | n + 1, s =>
    match p.args_[s.arg]?, p.body s with
    | some tok, some (.next s') =>
      (if (p.options_.find tok).isNone then 1 else 0) + argparser.plain_passes p n s'
    | _, _ => 0

/-- Among the first `n` passes from `s`, the number of those that moved `arg` by two: the
passes in which `handler(*(++arg))` took the token after the name as the value. -/
def argparser.values_taken {H : Type} (p : argparser H) : Nat → scan_state H → Nat
  | 0, _ => 0
  | n + 1, s =>
    match p.body s with
    | some (.next s') =>
      (if s'.arg = s.arg + 2 then 1 else 0) + argparser.values_taken p n s'
    | _ => 0

/-- Among the first `n` passes from `s`, the number of those that made no invocation. -/
def argparser.discarded {H : Type} (p : argparser H) : Nat → scan_state H → Nat
  | 0, _ => 0
  | n + 1, s =>
    match p.body s with
    | some (.next s') =>
      (if s'.calls.length = s.calls.length then 1 else 0) + argparser.discarded p n s'
    | _ => 0

/-! ### Handlers that can throw

The same loop once more, for handlers that need not return: calling `handler` with `value`
throws the value `e` of `E` when `throws handler value` is `some e`, and returns otherwise.
An invocation that throws is not added to `calls`. -/

/-- What leaves `operator()` as an exception: the one it throws itself, or a handler's. -/
inductive exception_t (E : Type) where
  | argument_required (e : argument_required_exception)
  | from_handler (e : E)
deriving DecidableEq, Repr

/-- What one pass through the loop body ends in when handlers can throw. -/
inductive step_result_t (H E : Type) where
  | next (s : scan_state H)
  | thrown (e : exception_t E)
deriving DecidableEq, Repr

/-- The call `handler(value)` of a handler that can throw. -/
def scan_state.invoke_t {H E : Type} (throws : H → String → Option E) (s : scan_state H)
    (handler : H) (value : String) : step_result_t H E :=
  match throws handler value with
  | some e => .thrown (.from_handler e)
  | none => .next (s.invoke handler value)

/-- The closing `++arg` of the loop body, when handlers can throw. -/
def step_result_t.incr_arg {H E : Type} : step_result_t H E → step_result_t H E
  | .next s => .next { s with arg := s.arg + 1 }
  | .thrown e => .thrown e

/-- The `if` branch of the loop body, when handlers can throw. -/
def argparser.option_case_t {H E : Type} (throws : H → String → Option E) (p : argparser H)
    (s : scan_state H) (tok : String) (opt : arg_options H) : Option (step_result_t H E) :=
  match opt.arg_type with
  | .no_argument => some (s.invoke_t throws opt.handler "")
  | .required_argument =>
    if s.arg + 1 ≠ p.args_.length then
      match p.args_[s.arg + 1]? with
      | none => none
      | some value => some ({ s with arg := s.arg + 1 }.invoke_t throws opt.handler value)
    else
      some (.thrown (.argument_required (argument_required_exception.ctor tok)))
  | .optional_argument =>
    if s.arg + 1 ≠ p.args_.length then
      match p.args_[s.arg + 1]? with
      | none => none
      | some value =>
        match p.options_.find value with
        | none => some ({ s with arg := s.arg + 1 }.invoke_t throws opt.handler value)
        | some _ => some (s.invoke_t throws opt.handler "")
    else
      some (s.invoke_t throws opt.handler "")

/-- The `else` branch of the loop body, when handlers can throw: `++current_positional_`
is reached only when the handler returned. -/
def argparser.positional_case_t {H E : Type} (throws : H → String → Option E)
    (p : argparser H) (s : scan_state H) (tok : String) : Option (step_result_t H E) :=
  if s.current_positional_ ≠ p.positionals_.length then
    match p.positionals_[s.current_positional_]? with
    | none => none
    | some handler =>
      match s.invoke_t throws handler tok with
      | .next s' => some (.next { s' with current_positional_ := s'.current_positional_ + 1 })
      | .thrown e => some (.thrown e)
  else
    some (.next s)

/-- The body of the `while` loop, when handlers can throw. -/
def argparser.body_t {H E : Type} (throws : H → String → Option E) (p : argparser H)
    (s : scan_state H) : Option (step_result_t H E) :=
  match p.args_[s.arg]? with
  | none => none
  | some tok =>
    (match p.options_.find tok with
      | some opt => p.option_case_t throws s tok opt
      | none => p.positional_case_t throws s tok).map step_result_t.incr_arg

/-- How a scan ends when handlers can throw. -/
inductive outcome_t (E : Type) where
  | done
  | thrown (e : exception_t E)
deriving DecidableEq, Repr

/-- The state in which a scan ends, and how, when handlers can throw. For an exception the
state is the one at the loop test before the pass that threw. -/
structure scan_result_t (H E : Type) where
  state : scan_state H
  outcome : outcome_t E
deriving DecidableEq, Repr

/-- The `while` loop, when handlers can throw, run for at most `fuel` passes. -/
def argparser.loop_t {H E : Type} (throws : H → String → Option E) (p : argparser H) :
    Nat → scan_state H → Option (scan_result_t H E)
  | fuel, s =>
    if s.arg ≠ p.args_.length then
      match fuel with
      | 0 => none
      | fuel + 1 =>
        match p.body_t throws s with
        | none => none
        | some (.next s') => argparser.loop_t throws p fuel s'
        | some (.thrown e) => some { state := s, outcome := .thrown e }
    else
      some { state := s, outcome := .done }

/-- The method `operator()`, when handlers can throw. -/
def argparser.run_t {H E : Type} (throws : H → String → Option E) (p : argparser H) :
    Option (scan_result_t H E) :=
  p.loop_t throws p.args_.length p.entry

/-! ## The registry -/

theorem options_map.find_append {H : Type} (m m' : options_map H) (key : String) :
    options_map.find (m ++ m') key =
      match options_map.find m key with
      | some v => some v
      | none => options_map.find m' key := by
  induction m with
  | nil => simp [options_map.find]
  | cons e rest ih =>
    obtain ⟨k, v⟩ := e
    by_cases hk : k = key
    · simp [options_map.find, hk]
    · simp [options_map.find, hk, ih]

theorem options_map.find_emplace_self {H : Type} (m : options_map H) (key : String)
    (v : arg_options H) :
    options_map.find (m.emplace key v) key = some ((options_map.find m key).getD v) := by
  unfold options_map.emplace
  cases h : options_map.find m key with
  | some d => simp [h]
  | none => simp [options_map.find_append, h, options_map.find]

theorem options_map.find_emplace_of_ne {H : Type} (m : options_map H) (key key' : String)
    (v : arg_options H) (hne : key ≠ key') :
    options_map.find (m.emplace key v) key' = options_map.find m key' := by
  unfold options_map.emplace
  cases h : options_map.find m key with
  | some d => simp
  | none =>
    simp only [options_map.find_append]
    cases h' : options_map.find m key' with
    | some d => simp
    | none => simp [options_map.find, hne]

/-! ## The loop -/

theorem argparser.loop_of_end {H : Type} (p : argparser H) (fuel : Nat) (s : scan_state H)
    (hend : s.arg = p.args_.length) :
    p.loop fuel s = some { state := s, outcome := .done } := by
  unfold argparser.loop
  simp [hend]

theorem argparser.loop_of_next {H : Type} (p : argparser H) (fuel : Nat) (s s' : scan_state H)
    (hcur : s.arg ≠ p.args_.length) (hbody : p.body s = some (.next s')) :
    p.loop (fuel + 1) s = p.loop fuel s' := by
  conv_lhs => unfold argparser.loop
  simp [hcur, hbody]

theorem argparser.loop_of_thrown {H : Type} (p : argparser H) (fuel : Nat) (s : scan_state H)
    (e : argument_required_exception)
    (hcur : s.arg ≠ p.args_.length) (hbody : p.body s = some (.thrown e)) :
    p.loop (fuel + 1) s = some { state := s, outcome := .thrown e } := by
  conv_lhs => unfold argparser.loop
  simp [hcur, hbody]

theorem argparser.lt_length_of_cursor {H : Type} (p : argparser H) (s : scan_state H)
    (tok : String) (hcur : p.args_[s.arg]? = some tok) : s.arg < p.args_.length := by
  by_contra hge
  rw [List.getElem?_eq_none (by omega)] at hcur
  cases hcur

/-- Every pass that reaches the loop test again has moved `arg` forward. -/
theorem argparser.arg_lt_of_body {H : Type} (p : argparser H) (s s' : scan_state H)
    (hbody : p.body s = some (.next s')) : s.arg < s'.arg := by
  unfold argparser.body at hbody
  cases htok : p.args_[s.arg]? with
  | none => simp [htok] at hbody
  | some tok =>
    simp only [htok] at hbody
    cases hfind : options_map.find p.options_ tok with
    | none =>
      simp only [hfind, argparser.positional_case] at hbody
      split at hbody
      · cases hp : p.positionals_[s.current_positional_]? with
        | none => simp [hp] at hbody
        | some h =>
          simp [hp, step_result.incr_arg, scan_state.invoke] at hbody
          subst hbody
          simp
      · simp [step_result.incr_arg] at hbody
        subst hbody
        simp
    | some opt =>
      simp only [hfind, argparser.option_case] at hbody
      cases ha : opt.arg_type <;> simp only [ha] at hbody
      · simp [step_result.incr_arg, scan_state.invoke] at hbody
        subst hbody
        simp
      · split at hbody
        · cases hv : p.args_[s.arg + 1]? with
          | none => simp [hv] at hbody
          | some v =>
            simp [hv, step_result.incr_arg, scan_state.invoke] at hbody
            subst hbody
            simp only
            omega
        · simp [step_result.incr_arg] at hbody
      · split at hbody
        · cases hv : p.args_[s.arg + 1]? with
          | none => simp [hv] at hbody
          | some v =>
            simp only [hv] at hbody
            cases hf : options_map.find p.options_ v with
            | none =>
              simp [hf, step_result.incr_arg, scan_state.invoke] at hbody
              subst hbody
              simp only
              omega
            | some d =>
              simp [hf, step_result.incr_arg, scan_state.invoke] at hbody
              subst hbody
              simp
        · simp [step_result.incr_arg, scan_state.invoke] at hbody
          subst hbody
          simp

/-- Passes that reach the loop test again only use up fuel. -/
theorem argparser.loop_of_iterate {H : Type} (p : argparser H) (n fuel : Nat)
    (s s' : scan_state H) (hiter : p.iterate n s = some s') :
    p.loop (fuel + n) s = p.loop fuel s' := by
  induction n generalizing s with
  | zero =>
    simp only [argparser.iterate, Option.some.injEq] at hiter
    subst hiter
    rfl
  | succ n ih =>
    unfold argparser.iterate at hiter
    split at hiter
    · rename_i hcur
      split at hiter
      · rename_i s1 hbody
        rw [← Nat.add_assoc, p.loop_of_next (fuel + n) s s1 hcur hbody]
        exact ih s1 hiter
      · cases hiter
    · cases hiter

/-- After `n` passes the cursor has moved at least `n` tokens on. -/
theorem argparser.arg_ge_of_iterate {H : Type} (p : argparser H) (n : Nat)
    (s s' : scan_state H) (hiter : p.iterate n s = some s') : s.arg + n ≤ s'.arg := by
  induction n generalizing s with
  | zero =>
    simp only [argparser.iterate, Option.some.injEq] at hiter
    subst hiter
    omega
  | succ n ih =>
    unfold argparser.iterate at hiter
    split at hiter
    · split at hiter
      · rename_i s1 hbody
        have h1 := p.arg_lt_of_body s s1 hbody
        have h2 := ih s1 hiter
        omega
      · cases hiter
    · cases hiter

/-- The pass on a required option that is the last token throws, naming the option. -/
theorem argparser.body_required_last {H : Type} (p : argparser H) (s : scan_state H)
    (t : String) (opt : arg_options H)
    (hcur : p.args_[s.arg]? = some t) (hlast : s.arg + 1 = p.args_.length)
    (hreg : options_map.find p.options_ t = some opt)
    (hreq : opt.arg_type = .required_argument) :
    p.body s = some (.thrown (argument_required_exception.ctor t)) := by
  simp [argparser.body, argparser.option_case, hcur, hreg, hreq, hlast, step_result.incr_arg]

/-- A scan that reaches a required option on the last token ends there, by the exception. -/
theorem argparser.run_of_reached_required_last {H : Type} (p : argparser H) (n : Nat)
    (s : scan_state H) (t : String) (opt : arg_options H)
    (hreach : p.iterate n p.entry = some s)
    (hcur : p.args_[s.arg]? = some t) (hlast : s.arg + 1 = p.args_.length)
    (hreg : options_map.find p.options_ t = some opt)
    (hreq : opt.arg_type = .required_argument) :
    p.run = some { state := s, outcome := .thrown (argument_required_exception.ctor t) } := by
  have hn := p.arg_ge_of_iterate n p.entry s hreach
  have hlen : p.args_.length = (p.args_.length - n - 1) + 1 + n := by
    simp only [argparser.entry] at hn
    omega
  unfold argparser.run
  rw [hlen, p.loop_of_iterate n _ p.entry s hreach]
  exact p.loop_of_thrown _ s _ (by omega) (p.body_required_last s t opt hcur hlast hreg hreq)

/-- The option name can be read back from the exception. -/
theorem argument_required_exception.ctor_injective (a b : String)
    (h : argument_required_exception.ctor a = argument_required_exception.ctor b) : a = b := by
  have hmsg := congrArg (fun e => e.exception_message.data) h
  simp only [argument_required_exception.ctor, String.data_append] at hmsg
  exact String.ext (List.append_cancel_left (List.append_cancel_right hmsg))

/-- A pass through the `if` branch that reaches the loop test again has made exactly one
invocation, of the handler of the descriptor, and has left `current_positional_` alone. -/
theorem argparser.option_case_calls {H : Type} (p : argparser H) (s s' : scan_state H)
    (tok : String) (opt : arg_options H)
    (hcase : p.option_case s tok opt = some (.next s')) :
    (∃ v, s'.calls = s.calls ++ [(opt.handler, v)]) ∧
      s'.current_positional_ = s.current_positional_ := by
  unfold argparser.option_case at hcase
  cases ha : opt.arg_type <;> simp only [ha] at hcase
  · simp only [Option.some.injEq, step_result.next.injEq] at hcase
    subst hcase
    exact ⟨⟨"", rfl⟩, rfl⟩
  · split at hcase
    · cases hv : p.args_[s.arg + 1]? with
      | none => simp [hv] at hcase
      | some v =>
        simp only [hv, Option.some.injEq, step_result.next.injEq] at hcase
        subst hcase
        exact ⟨⟨v, rfl⟩, rfl⟩
    · simp at hcase
  · split at hcase
    · cases hv : p.args_[s.arg + 1]? with
      | none => simp [hv] at hcase
      | some v =>
        simp only [hv] at hcase
        cases hf : options_map.find p.options_ v with
        | none =>
          simp only [hf, Option.some.injEq, step_result.next.injEq] at hcase
          subst hcase
          exact ⟨⟨v, rfl⟩, rfl⟩
        | some d =>
          simp only [hf, Option.some.injEq, step_result.next.injEq] at hcase
          subst hcase
          exact ⟨⟨"", rfl⟩, rfl⟩
    · simp only [Option.some.injEq, step_result.next.injEq] at hcase
      subst hcase
      exact ⟨⟨"", rfl⟩, rfl⟩

/-- The pass on a registered name is the `if` branch followed by `++arg`. -/
theorem argparser.body_of_registered {H : Type} (p : argparser H) (s : scan_state H)
    (tok : String) (opt : arg_options H)
    (hcur : p.args_[s.arg]? = some tok) (hreg : options_map.find p.options_ tok = some opt) :
    p.body s = (p.option_case s tok opt).map step_result.incr_arg := by
  simp [argparser.body, hcur, hreg]

/-- A pass on a registered name that reaches the loop test again has invoked the handler
registered for that name, once, and nothing else. -/
theorem argparser.body_calls_of_registered {H : Type} (p : argparser H) (s s' : scan_state H)
    (tok : String) (opt : arg_options H)
    (hcur : p.args_[s.arg]? = some tok) (hreg : options_map.find p.options_ tok = some opt)
    (hbody : p.body s = some (.next s')) :
    (∃ v, s'.calls = s.calls ++ [(opt.handler, v)]) ∧
      s'.current_positional_ = s.current_positional_ := by
  rw [p.body_of_registered s tok opt hcur hreg] at hbody
  cases hc : p.option_case s tok opt with
  | none => simp [hc] at hbody
  | some r =>
    cases r with
    | thrown e => simp [hc, step_result.incr_arg] at hbody
    | next s1 =>
      simp only [hc, Option.map_some', step_result.incr_arg, Option.some.injEq,
        step_result.next.injEq] at hbody
      subst hbody
      exact p.option_case_calls s s1 tok opt hc

/-- A scan that has reached the state `s` goes on from `s` with the passes that are left. -/
theorem argparser.run_of_iterate {H : Type} (p : argparser H) (n : Nat) (s : scan_state H)
    (hreach : p.iterate n p.entry = some s) (hle : s.arg ≤ p.args_.length) :
    p.run = p.loop (p.args_.length - n) s := by
  have hn := p.arg_ge_of_iterate n p.entry s hreach
  have hlen : p.args_.length = (p.args_.length - n) + n := by omega
  unfold argparser.run
  conv_lhs => rw [hlen]
  exact p.loop_of_iterate n _ p.entry s hreach

/-- The pass on a token that is no registered name is the `else` branch followed by
`++arg`. -/
theorem argparser.body_of_plain {H : Type} (p : argparser H) (s : scan_state H)
    (tok : String)
    (hcur : p.args_[s.arg]? = some tok) (hplain : options_map.find p.options_ tok = none) :
    p.body s = (p.positional_case s tok).map step_result.incr_arg := by
  simp [argparser.body, hcur, hplain]

/-- From any state on, a scan over tokens none of which is a registered name pairs the
positional handlers that are left with the tokens that are left, in order. -/
theorem argparser.loop_of_plain_tokens {H : Type} (p : argparser H)
    (hplain : ∀ t ∈ p.args_, options_map.find p.options_ t = none)
    (fuel : Nat) (s : scan_state H)
    (harg : s.arg ≤ p.args_.length) (hpos : s.current_positional_ ≤ p.positionals_.length)
    (hfuel : p.args_.length - s.arg ≤ fuel) :
    p.loop fuel s
      = some { state :=
                { arg := p.args_.length,
                  current_positional_ := s.current_positional_ +
                    min (p.positionals_.length - s.current_positional_)
                      (p.args_.length - s.arg),
                  calls := s.calls ++
                    (p.positionals_.drop s.current_positional_).zip (p.args_.drop s.arg) },
               outcome := .done } := by
  induction fuel generalizing s with
  | zero =>
    have hend : s.arg = p.args_.length := by omega
    rw [p.loop_of_end 0 s hend]
    obtain ⟨a, c, l⟩ := s
    simp only at hend
    subst hend
    simp
  | succ fuel ih =>
    by_cases hend : s.arg = p.args_.length
    · rw [p.loop_of_end (fuel + 1) s hend]
      obtain ⟨a, c, l⟩ := s
      simp only at hend
      subst hend
      simp
    · have hlt : s.arg < p.args_.length := by omega
      have hcur : p.args_[s.arg]? = some p.args_[s.arg] := List.getElem?_eq_getElem hlt
      have hfind := hplain p.args_[s.arg] (List.getElem_mem hlt)
      have hdrop : p.args_.drop s.arg = p.args_[s.arg] :: p.args_.drop (s.arg + 1) :=
        List.drop_eq_getElem_cons hlt
      by_cases hp : s.current_positional_ = p.positionals_.length
      · have hbody : p.body s = some (.next { s with arg := s.arg + 1 }) := by
          rw [p.body_of_plain s _ hcur hfind]
          simp [argparser.positional_case, hp, step_result.incr_arg]
        rw [p.loop_of_next fuel s _ hend hbody, ih _ (by simp; omega) (by simp; omega)
          (by simp; omega)]
        simp [hp]
      · have hplt : s.current_positional_ < p.positionals_.length := by omega
        have hh : p.positionals_[s.current_positional_]?
            = some p.positionals_[s.current_positional_] := List.getElem?_eq_getElem hplt
        have hdrop' : p.positionals_.drop s.current_positional_
            = p.positionals_[s.current_positional_]
                :: p.positionals_.drop (s.current_positional_ + 1) :=
          List.drop_eq_getElem_cons hplt
        have hbody : p.body s
            = some (.next { arg := s.arg + 1,
                            current_positional_ := s.current_positional_ + 1,
                            calls := s.calls ++
                              [(p.positionals_[s.current_positional_], p.args_[s.arg])] }) := by
          rw [p.body_of_plain s _ hcur hfind]
          simp [argparser.positional_case, hp, hh, step_result.incr_arg, scan_state.invoke]
        rw [p.loop_of_next fuel s _ hend hbody, ih _ (by simp; omega) (by simp; omega)
          (by simp; omega)]
        simp only [hdrop, hdrop', List.zip_cons_cons, List.append_assoc, List.singleton_append,
          Option.some.injEq, scan_result.mk.injEq, scan_state.mk.injEq, and_true, true_and]
        omega

/-! ## Registration of a name that is registered already -/

/-- C1, counterexample: with "-x" registered as no_argument first for h1 and then for h2,
the scan of the single token "-x" invokes h1 and not h2, and "-x" stays bound to h1. -/
theorem reg_twice_last_wins_counterexample :
    options_map.find
        (((argparser.of_tokens String ["-x"]).reg ["-x"] .no_argument "h1").reg
          ["-x"] .no_argument "h2").options_ "-x"
      ≠ some { handler := "h2", arg_type := .no_argument } ∧
    (((argparser.of_tokens String ["-x"]).reg ["-x"] .no_argument "h1").reg
        ["-x"] .no_argument "h2").run
      = some { state := { arg := 1, current_positional_ := 0, calls := [("h1", "")] },
               outcome := .done } := by
  decide

/-- C1, amended: the first registration wins. After reg([n], a1, h1) followed by
reg([n], a2, h2) on a dispatcher in which n was not registered, n is bound to the
descriptor of h1 and a1; every scan step whose cursor is on a token equal to n runs the
option branch for h1 with arity a1, and the only invocation it makes is one of h1. -/
theorem reg_twice_first_wins {H : Type} (p : argparser H) (n : String) (a1 a2 : arg_type_t)
    (h1 h2 : H) (s : scan_state H)
    (hfresh : options_map.find p.options_ n = none)
    (hcur : p.args_[s.arg]? = some n) :
    options_map.find ((p.reg [n] a1 h1).reg [n] a2 h2).options_ n
      = some { handler := h1, arg_type := a1 } ∧
    ((p.reg [n] a1 h1).reg [n] a2 h2).body s
      = (((p.reg [n] a1 h1).reg [n] a2 h2).option_case s n
          { handler := h1, arg_type := a1 }).map step_result.incr_arg ∧
    ∀ s', ((p.reg [n] a1 h1).reg [n] a2 h2).body s = some (.next s') →
      ∃ v, s'.calls = s.calls ++ [(h1, v)] := by
  have hfind : options_map.find ((p.reg [n] a1 h1).reg [n] a2 h2).options_ n
      = some { handler := h1, arg_type := a1 } := by
    simp [argparser.reg, options_map.find_emplace_self, hfresh]
  have hcur' : ((p.reg [n] a1 h1).reg [n] a2 h2).args_[s.arg]? = some n := hcur
  refine ⟨hfind, argparser.body_of_registered _ s n _ hcur' hfind, ?_⟩
  intro s' hbody
  exact (argparser.body_calls_of_registered _ s s' n _ hcur' hfind hbody).1

/-- C1 (amended), at the input of the counterexample: "-x" is new to the dispatcher, the
cursor of the entry state is on it, and the theorem gives the binding to h1. -/
theorem reg_twice_first_wins_witness :
    options_map.find (argparser.of_tokens String ["-x"]).options_ "-x" = none ∧
    (argparser.of_tokens String ["-x"]).args_[(argparser.of_tokens String ["-x"]).entry.arg]?
      = some "-x" ∧
    options_map.find
        (((argparser.of_tokens String ["-x"]).reg ["-x"] .no_argument "h1").reg
          ["-x"] .no_argument "h2").options_ "-x"
      = some { handler := "h1", arg_type := .no_argument } :=
  ⟨by decide, by decide,
    (reg_twice_first_wins (argparser.of_tokens String ["-x"]) "-x" .no_argument .no_argument
      "h1" "h2" (argparser.of_tokens String ["-x"]).entry (by decide) (by decide)).1⟩

/-! ## A required option without a following token -/

/-- C2: when the scan has reached a state whose cursor is on a token t that is a
registered required_argument option and is the last token, the pass throws the exception
built from t, and the scan ends by that exception in that very state: no handler was
invoked in the pass or afterwards. The name t can be read back from the exception. -/
theorem missing_required_argument {H : Type} (p : argparser H) (n fuel : Nat)
    (s : scan_state H) (t : String) (opt : arg_options H)
    (hreach : p.iterate n p.entry = some s)
    (hcur : p.args_[s.arg]? = some t) (hlast : s.arg + 1 = p.args_.length)
    (hreg : options_map.find p.options_ t = some opt)
    (hreq : opt.arg_type = .required_argument) :
    p.body s = some (.thrown (argument_required_exception.ctor t)) ∧
    p.loop (fuel + 1) s
      = some { state := s, outcome := .thrown (argument_required_exception.ctor t) } ∧
    p.run = some { state := s, outcome := .thrown (argument_required_exception.ctor t) } ∧
    (argument_required_exception.ctor t).what
      = "Option `" ++ t ++ "` requires an argument, but none is given." ∧
    ∀ t', argument_required_exception.ctor t' = argument_required_exception.ctor t → t' = t :=
  ⟨p.body_required_last s t opt hcur hlast hreg hreq,
    p.loop_of_thrown fuel s _ (by omega) (p.body_required_last s t opt hcur hlast hreg hreq),
    p.run_of_reached_required_last n s t opt hreach hcur hlast hreg hreq,
    rfl,
    fun t' h => argument_required_exception.ctor_injective t' t h⟩

/-- C2, the scenario of the claim: registry "-o" required, tokens ["-o"]; the scan ends by
the exception for "-o" with no invocation made. -/
theorem missing_required_argument_witness :
    ((argparser.of_tokens String ["-o"]).reg ["-o"] .required_argument "O").run
      = some { state := { arg := 0, current_positional_ := 0, calls := [] },
               outcome := .thrown (argument_required_exception.ctor "-o") } :=
  (missing_required_argument
    ((argparser.of_tokens String ["-o"]).reg ["-o"] .required_argument "O") 0 0
    { arg := 0, current_positional_ := 0, calls := [] } "-o"
    { handler := "O", arg_type := .required_argument }
    (by decide) (by decide) (by decide) (by decide) (by decide)).2.2.1

/-- C3, counterexample: with "-o" registered as required_argument and the tokens
["-o", "-o"], the last token is a registered required option, and the scan succeeds: the
first "-o" takes the second one as its value. -/
theorem required_last_token_counterexample :
    ((argparser.of_tokens String ["-o", "-o"]).reg ["-o"] .required_argument "O").args_.getLast?
      = some "-o" ∧
    options_map.find
        ((argparser.of_tokens String ["-o", "-o"]).reg ["-o"] .required_argument "O").options_
        "-o"
      = some { handler := "O", arg_type := .required_argument } ∧
    ((argparser.of_tokens String ["-o", "-o"]).reg ["-o"] .required_argument "O").run
      = some { state := { arg := 2, current_positional_ := 0, calls := [("O", "-o")] },
               outcome := .done } := by
  decide

/-- C3, amended: for every registry, positional-handler list and non-empty token sequence
whose last token is a registered option name of required arity, if the cursor of the scan
reaches that last token (it is not taken as the value of the option before it), the scan
ends by the exception naming that token, in the state in which the cursor reached it: no
handler, positional or not, is invoked at or after that point. -/
theorem required_last_token_reached {H : Type} (p : argparser H) (n : Nat)
    (s : scan_state H) (t : String) (opt : arg_options H)
    (hlast : p.args_.getLast? = some t)
    (hreg : options_map.find p.options_ t = some opt)
    (hreq : opt.arg_type = .required_argument)
    (hreach : p.iterate n p.entry = some s) (hcur : s.arg + 1 = p.args_.length) :
    p.run = some { state := s, outcome := .thrown (argument_required_exception.ctor t) } := by
  have htok : p.args_[s.arg]? = some t := by
    rw [← hlast, List.getLast?_eq_getElem?, ← hcur]
    simp
  exact p.run_of_reached_required_last n s t opt hreach htok hcur hreg hreq

/-- C3 (amended), on the tokens ["in", "-o"] with one positional handler: the cursor
reaches "-o" after the pass on "in", and the scan ends by the exception with the one
positional invocation made before. -/
theorem required_last_token_reached_witness :
    (((argparser.of_tokens String ["in", "-o"]).reg ["-o"] .required_argument "O").pos "P").run
      = some { state := { arg := 1, current_positional_ := 1, calls := [("P", "in")] },
               outcome := .thrown (argument_required_exception.ctor "-o") } :=
  required_last_token_reached
    (((argparser.of_tokens String ["in", "-o"]).reg ["-o"] .required_argument "O").pos "P") 1
    { arg := 1, current_positional_ := 1, calls := [("P", "in")] } "-o"
    { handler := "O", arg_type := .required_argument }
    (by decide) (by decide) (by decide) (by decide) (by decide)

/-! ## The passes on an option, by arity -/

/-- C4: when the cursor is at index i on a registered optional_argument option and token
i+1 exists and is a registered name, the pass invokes the handler of token i with the empty
string and leaves the cursor at i+1 and the positional pointer where it was; the loop goes
on from there, and the next pass is the option branch for token i+1 with its own
descriptor: if it reaches the loop test again, it has invoked the handler of token i+1. -/
theorem optional_before_option {H : Type} (p : argparser H) (s : scan_state H) (fuel : Nat)
    (tok tok' : String) (opt opt' : arg_options H)
    (hcur : p.args_[s.arg]? = some tok)
    (hreg : options_map.find p.options_ tok = some opt)
    (hopt : opt.arg_type = .optional_argument)
    (hnext : p.args_[s.arg + 1]? = some tok')
    (hreg' : options_map.find p.options_ tok' = some opt') :
    p.body s = some (.next { arg := s.arg + 1, current_positional_ := s.current_positional_,
                             calls := s.calls ++ [(opt.handler, "")] }) ∧
    p.loop (fuel + 1) s
      = p.loop fuel { arg := s.arg + 1, current_positional_ := s.current_positional_,
                      calls := s.calls ++ [(opt.handler, "")] } ∧
    p.body { arg := s.arg + 1, current_positional_ := s.current_positional_,
             calls := s.calls ++ [(opt.handler, "")] }
      = (p.option_case { arg := s.arg + 1, current_positional_ := s.current_positional_,
                         calls := s.calls ++ [(opt.handler, "")] } tok' opt').map
          step_result.incr_arg ∧
    ∀ s', p.body { arg := s.arg + 1, current_positional_ := s.current_positional_,
                   calls := s.calls ++ [(opt.handler, "")] } = some (.next s') →
      (∃ v, s'.calls = s.calls ++ [(opt.handler, "")] ++ [(opt'.handler, v)]) ∧
        s'.current_positional_ = s.current_positional_ := by
  have hlt := p.lt_length_of_cursor s tok hcur
  have hlt' : s.arg + 1 < p.args_.length := by
    by_contra hge
    rw [List.getElem?_eq_none (by omega)] at hnext
    cases hnext
  have hne : s.arg + 1 ≠ p.args_.length := by omega
  have hbody : p.body s
      = some (.next { arg := s.arg + 1, current_positional_ := s.current_positional_,
                      calls := s.calls ++ [(opt.handler, "")] }) := by
    simp [argparser.body, argparser.option_case, hcur, hreg, hopt, hnext, hreg', hne,
      step_result.incr_arg, scan_state.invoke]
  refine ⟨hbody, p.loop_of_next fuel s _ (by omega) hbody,
    p.body_of_registered _ tok' opt' hnext hreg', ?_⟩
  intro s' hbody'
  exact p.body_calls_of_registered _ s' tok' opt' hnext hreg' hbody'

/-- C4 on the tokens ["-x", "-v"], "-x" optional and "-v" without argument: the pass on
"-x" invokes X with the empty string and leaves the cursor on "-v"; the scan then invokes V. -/
theorem optional_before_option_witness :
    (((argparser.of_tokens String ["-x", "-v"]).reg ["-x"] .optional_argument "X").reg
        ["-v"] .no_argument "V").run
      = some { state := { arg := 2, current_positional_ := 0, calls := [("X", ""), ("V", "")] },
               outcome := .done } ∧
    (((argparser.of_tokens String ["-x", "-v"]).reg ["-x"] .optional_argument "X").reg
        ["-v"] .no_argument "V").body { arg := 0, current_positional_ := 0, calls := [] }
      = some (.next { arg := 1, current_positional_ := 0, calls := [("X", "")] }) :=
  ⟨by decide,
    (optional_before_option
      (((argparser.of_tokens String ["-x", "-v"]).reg ["-x"] .optional_argument "X").reg
        ["-v"] .no_argument "V")
      { arg := 0, current_positional_ := 0, calls := [] } 0 "-x" "-v"
      { handler := "X", arg_type := .optional_argument }
      { handler := "V", arg_type := .no_argument }
      (by decide) (by decide) (by decide) (by decide) (by decide)).1⟩

/-- C5: when the cursor is at index i on a registered optional_argument option and token
i+1 exists and is no registered name, the pass invokes the handler of token i with token
i+1 and nothing else, leaves the cursor at i+2 and the positional pointer where it was, and
the loop goes on from there; the cursor of no later pass is below i+2, so token i+1 is
never under it. -/
theorem optional_before_plain {H : Type} (p : argparser H) (s : scan_state H) (fuel : Nat)
    (tok value : String) (opt : arg_options H)
    (hcur : p.args_[s.arg]? = some tok)
    (hreg : options_map.find p.options_ tok = some opt)
    (hopt : opt.arg_type = .optional_argument)
    (hnext : p.args_[s.arg + 1]? = some value)
    (hplain : options_map.find p.options_ value = none) :
    p.body s = some (.next { arg := s.arg + 2, current_positional_ := s.current_positional_,
                             calls := s.calls ++ [(opt.handler, value)] }) ∧
    p.loop (fuel + 1) s
      = p.loop fuel { arg := s.arg + 2, current_positional_ := s.current_positional_,
                      calls := s.calls ++ [(opt.handler, value)] } ∧
    ∀ k s', p.iterate k { arg := s.arg + 2, current_positional_ := s.current_positional_,
                          calls := s.calls ++ [(opt.handler, value)] } = some s' →
      s.arg + 2 ≤ s'.arg := by
  have hlt := p.lt_length_of_cursor s tok hcur
  have hlt' : s.arg + 1 < p.args_.length := by
    by_contra hge
    rw [List.getElem?_eq_none (by omega)] at hnext
    cases hnext
  have hne : s.arg + 1 ≠ p.args_.length := by omega
  have hbody : p.body s
      = some (.next { arg := s.arg + 2, current_positional_ := s.current_positional_,
                      calls := s.calls ++ [(opt.handler, value)] }) := by
    simp [argparser.body, argparser.option_case, hcur, hreg, hopt, hnext, hplain, hne,
      step_result.incr_arg, scan_state.invoke]
  refine ⟨hbody, p.loop_of_next fuel s _ (by omega) hbody, ?_⟩
  intro k s' hiter
  have hge := p.arg_ge_of_iterate k _ s' hiter
  simp only at hge
  omega

/-- C5 on the tokens ["-x", "file", "rest"] with "-x" optional and one positional handler:
X receives "file", and the positional handler receives "rest", not "file". -/
theorem optional_before_plain_witness :
    (((argparser.of_tokens String ["-x", "file", "rest"]).reg
        ["-x"] .optional_argument "X").pos "P").run
      = some { state := { arg := 3, current_positional_ := 1,
                          calls := [("X", "file"), ("P", "rest")] },
               outcome := .done } ∧
    (((argparser.of_tokens String ["-x", "file", "rest"]).reg
        ["-x"] .optional_argument "X").pos "P").body
        { arg := 0, current_positional_ := 0, calls := [] }
      = some (.next { arg := 2, current_positional_ := 0, calls := [("X", "file")] }) :=
  ⟨by decide,
    (optional_before_plain
      (((argparser.of_tokens String ["-x", "file", "rest"]).reg
        ["-x"] .optional_argument "X").pos "P")
      { arg := 0, current_positional_ := 0, calls := [] } 0 "-x" "file"
      { handler := "X", arg_type := .optional_argument }
      (by decide) (by decide) (by decide) (by decide) (by decide)).1⟩

/-- C6: when the scan has reached a state whose cursor is on a registered
optional_argument option that is the last token, the pass invokes its handler with the empty
string and moves the cursor to the end; the loop is left normally there, so the scan ends
without exception and with that invocation as its last one. -/
theorem optional_last {H : Type} (p : argparser H) (n fuel : Nat) (s : scan_state H)
    (tok : String) (opt : arg_options H)
    (hreach : p.iterate n p.entry = some s)
    (hcur : p.args_[s.arg]? = some tok) (hlast : s.arg + 1 = p.args_.length)
    (hreg : options_map.find p.options_ tok = some opt)
    (hopt : opt.arg_type = .optional_argument) :
    p.body s = some (.next { arg := s.arg + 1, current_positional_ := s.current_positional_,
                             calls := s.calls ++ [(opt.handler, "")] }) ∧
    p.loop (fuel + 1) s
      = some { state := { arg := s.arg + 1, current_positional_ := s.current_positional_,
                          calls := s.calls ++ [(opt.handler, "")] },
               outcome := .done } ∧
    p.run
      = some { state := { arg := s.arg + 1, current_positional_ := s.current_positional_,
                          calls := s.calls ++ [(opt.handler, "")] },
               outcome := .done } := by
  have hbody : p.body s
      = some (.next { arg := s.arg + 1, current_positional_ := s.current_positional_,
                      calls := s.calls ++ [(opt.handler, "")] }) := by
    simp [argparser.body, argparser.option_case, hcur, hreg, hopt, hlast,
      step_result.incr_arg, scan_state.invoke]
  have hloop : ∀ k, p.loop (k + 1) s
      = some { state := { arg := s.arg + 1, current_positional_ := s.current_positional_,
                          calls := s.calls ++ [(opt.handler, "")] },
               outcome := .done } := by
    intro k
    rw [p.loop_of_next k s _ (by omega) hbody]
    exact p.loop_of_end k _ hlast
  refine ⟨hbody, hloop fuel, ?_⟩
  have hn := p.arg_ge_of_iterate n p.entry s hreach
  rw [p.run_of_iterate n s hreach (by omega)]
  have hk : p.args_.length - n = (p.args_.length - n - 1) + 1 := by omega
  rw [hk]
  exact hloop _

/-- C6, the scenario of the claim: registry "-x" optional, tokens ["-x"]; the scan succeeds
with exactly one invocation, of the handler of "-x" with the empty string. -/
theorem optional_last_witness :
    ((argparser.of_tokens String ["-x"]).reg ["-x"] .optional_argument "X").run
      = some { state := { arg := 1, current_positional_ := 0, calls := [("X", "")] },
               outcome := .done } :=
  (optional_last ((argparser.of_tokens String ["-x"]).reg ["-x"] .optional_argument "X") 0 0
    { arg := 0, current_positional_ := 0, calls := [] } "-x"
    { handler := "X", arg_type := .optional_argument }
    (by decide) (by decide) (by decide) (by decide) (by decide)).2.2

/-- C7: when the cursor is at index i on a registered no_argument option, whatever follows,
the pass invokes its handler with the empty string and nothing else, leaves the cursor at
i+1 and the positional pointer where it was, and the loop goes on from that state, so
token i+1 is under the cursor at the next loop test. -/
theorem no_argument_step {H : Type} (p : argparser H) (s : scan_state H) (fuel : Nat)
    (tok : String) (opt : arg_options H)
    (hcur : p.args_[s.arg]? = some tok)
    (hreg : options_map.find p.options_ tok = some opt)
    (hno : opt.arg_type = .no_argument) :
    p.body s = some (.next { arg := s.arg + 1, current_positional_ := s.current_positional_,
                             calls := s.calls ++ [(opt.handler, "")] }) ∧
    p.loop (fuel + 1) s
      = p.loop fuel { arg := s.arg + 1, current_positional_ := s.current_positional_,
                      calls := s.calls ++ [(opt.handler, "")] } := by
  have hlt := p.lt_length_of_cursor s tok hcur
  have hbody : p.body s
      = some (.next { arg := s.arg + 1, current_positional_ := s.current_positional_,
                      calls := s.calls ++ [(opt.handler, "")] }) := by
    simp [argparser.body, argparser.option_case, hcur, hreg, hno,
      step_result.incr_arg, scan_state.invoke]
  exact ⟨hbody, p.loop_of_next fuel s _ (by omega) hbody⟩

/-- C7 on the tokens ["-v", "file"] with "-v" without argument and one positional handler:
V is invoked with the empty string, and "file" is handled by the next pass. -/
theorem no_argument_step_witness :
    (((argparser.of_tokens String ["-v", "file"]).reg ["-v"] .no_argument "V").pos "P").run
      = some { state := { arg := 2, current_positional_ := 1,
                          calls := [("V", ""), ("P", "file")] },
               outcome := .done } ∧
    (((argparser.of_tokens String ["-v", "file"]).reg ["-v"] .no_argument "V").pos "P").body
        { arg := 0, current_positional_ := 0, calls := [] }
      = some (.next { arg := 1, current_positional_ := 0, calls := [("V", "")] }) :=
  ⟨by decide,
    (no_argument_step
      (((argparser.of_tokens String ["-v", "file"]).reg ["-v"] .no_argument "V").pos "P")
      { arg := 0, current_positional_ := 0, calls := [] } 0 "-v"
      { handler := "V", arg_type := .no_argument }
      (by decide) (by decide) (by decide)).1⟩

/-- C10: when the cursor is at index i on a registered required_argument option and token
i+1 exists, registered name or not, the pass invokes the handler with token i+1 and nothing
else, leaves the cursor at i+2 and the positional pointer where it was, and the loop goes on
from that state; the cursor of no later pass is below i+2, so token i+1 is never under it. -/
theorem required_takes_next {H : Type} (p : argparser H) (s : scan_state H) (fuel : Nat)
    (tok value : String) (opt : arg_options H)
    (hcur : p.args_[s.arg]? = some tok)
    (hreg : options_map.find p.options_ tok = some opt)
    (hreq : opt.arg_type = .required_argument)
    (hnext : p.args_[s.arg + 1]? = some value) :
    p.body s = some (.next { arg := s.arg + 2, current_positional_ := s.current_positional_,
                             calls := s.calls ++ [(opt.handler, value)] }) ∧
    p.loop (fuel + 1) s
      = p.loop fuel { arg := s.arg + 2, current_positional_ := s.current_positional_,
                      calls := s.calls ++ [(opt.handler, value)] } ∧
    ∀ k s', p.iterate k { arg := s.arg + 2, current_positional_ := s.current_positional_,
                          calls := s.calls ++ [(opt.handler, value)] } = some s' →
      s.arg + 2 ≤ s'.arg := by
  have hlt := p.lt_length_of_cursor s tok hcur
  have hlt' : s.arg + 1 < p.args_.length := by
    by_contra hge
    rw [List.getElem?_eq_none (by omega)] at hnext
    cases hnext
  have hne : s.arg + 1 ≠ p.args_.length := by omega
  have hbody : p.body s
      = some (.next { arg := s.arg + 2, current_positional_ := s.current_positional_,
                      calls := s.calls ++ [(opt.handler, value)] }) := by
    simp [argparser.body, argparser.option_case, hcur, hreg, hreq, hnext, hne,
      step_result.incr_arg, scan_state.invoke]
  refine ⟨hbody, p.loop_of_next fuel s _ (by omega) hbody, ?_⟩
  intro k s' hiter
  have hge := p.arg_ge_of_iterate k _ s' hiter
  simp only at hge
  omega

/-- C10, the scenario of the claim: registry "-o" required and "-v" without argument,
tokens ["-o", "-v"]; the only invocation is the one of the handler of "-o" with "-v". -/
theorem required_takes_next_witness :
    (((argparser.of_tokens String ["-o", "-v"]).reg ["-o"] .required_argument "O").reg
        ["-v"] .no_argument "V").run
      = some { state := { arg := 2, current_positional_ := 0, calls := [("O", "-v")] },
               outcome := .done } ∧
    (((argparser.of_tokens String ["-o", "-v"]).reg ["-o"] .required_argument "O").reg
        ["-v"] .no_argument "V").body { arg := 0, current_positional_ := 0, calls := [] }
      = some (.next { arg := 2, current_positional_ := 0, calls := [("O", "-v")] }) :=
  ⟨by decide,
    (required_takes_next
      (((argparser.of_tokens String ["-o", "-v"]).reg ["-o"] .required_argument "O").reg
        ["-v"] .no_argument "V")
      { arg := 0, current_positional_ := 0, calls := [] } 0 "-o" "-v"
      { handler := "O", arg_type := .required_argument }
      (by decide) (by decide) (by decide) (by decide)).1⟩

/-! ## Whole scans -/

/-- C8: for every registry, every list of m positional handlers and every sequence of n
tokens none of which is a registered name, the scan ends normally at the end of the tokens,
and its invocations are the positional handlers paired with the tokens, in order: the list
[(p_0, t_0), ..., (p_(k-1), t_(k-1))] with k = min m n. The tokens from index m on add no
invocation. -/
theorem positional_only {H : Type} (p : argparser H)
    (hplain : ∀ t ∈ p.args_, options_map.find p.options_ t = none) :
    p.run = some { state := { arg := p.args_.length,
                              current_positional_ :=
                                min p.positionals_.length p.args_.length,
                              calls := p.positionals_.zip p.args_ },
                   outcome := .done } ∧
    (p.positionals_.zip p.args_).length = min p.positionals_.length p.args_.length ∧
    ∀ (i : Nat) (h : H) (t : String), p.positionals_[i]? = some h → p.args_[i]? = some t →
      (p.positionals_.zip p.args_)[i]? = some (h, t) := by
  refine ⟨?_, List.length_zip _ _, ?_⟩
  · unfold argparser.run
    rw [p.loop_of_plain_tokens hplain p.args_.length p.entry (by simp [argparser.entry])
      (by simp [argparser.entry]) (by simp)]
    simp [argparser.entry]
  · intro i h t hh ht
    simp [List.getElem?_zip_eq_some, hh, ht]

/-- C8 with two positional handlers, three tokens and a registry that has none of them:
the first two tokens go to the two handlers, the third is dropped. -/
theorem positional_only_witness :
    ((((argparser.of_tokens String ["a", "b", "c"]).reg ["-v"] .no_argument "V").pos
        "P0").pos "P1").run
      = some { state := { arg := 3, current_positional_ := 2,
                          calls := [("P0", "a"), ("P1", "b")] },
               outcome := .done } :=
  (positional_only
    ((((argparser.of_tokens String ["a", "b", "c"]).reg ["-v"] .no_argument "V").pos
        "P0").pos "P1")
    (by decide)).1

/-- C9: with reg(["-v", "--verbose"], no_argument, V), reg(["-o"], required_argument, O),
pos(P) and the tokens ["-v", "input.txt", "-o", "out.txt"], the scan ends normally and its
invocations are V(""), P("input.txt"), O("out.txt"), in that order, three in total. -/
theorem mixed_scenario {H : Type} (V O P : H) :
    ((((argparser.of_tokens H ["-v", "input.txt", "-o", "out.txt"]).reg
        ["-v", "--verbose"] .no_argument V).reg ["-o"] .required_argument O).pos P).run
      = some { state := { arg := 4, current_positional_ := 1,
                          calls := [(V, ""), (P, "input.txt"), (O, "out.txt")] },
               outcome := .done } ∧
    [(V, ""), (P, "input.txt"), (O, "out.txt")].length = 3 := by
  constructor
  · rfl
  · rfl

/-! ## Every pass, case by case -/

/-- The five ways a pass can go from a state whose cursor is on a token and whose
positional pointer is inside `positionals_` or at its end: the exception, an option without
value, an option with the next token as value, a positional token that is delivered, a
positional token that is dropped. -/
theorem argparser.body_cases {H : Type} (p : argparser H) (s : scan_state H) (tok : String)
    (hcur : p.args_[s.arg]? = some tok)
    (hpos : s.current_positional_ ≤ p.positionals_.length) :
    (∃ opt, options_map.find p.options_ tok = some opt ∧
        opt.arg_type = .required_argument ∧ s.arg + 1 = p.args_.length ∧
        p.body s = some (.thrown (argument_required_exception.ctor tok))) ∨
    (∃ opt, options_map.find p.options_ tok = some opt ∧
        (opt.arg_type = .no_argument ∨
          (opt.arg_type = .optional_argument ∧
            ¬ ∃ v, p.args_[s.arg + 1]? = some v ∧ options_map.find p.options_ v = none)) ∧
        p.body s = some (.next { arg := s.arg + 1,
                                 current_positional_ := s.current_positional_,
                                 calls := s.calls ++ [(opt.handler, "")] })) ∨
    (∃ opt v, options_map.find p.options_ tok = some opt ∧ p.args_[s.arg + 1]? = some v ∧
        (opt.arg_type = .required_argument ∨
          (opt.arg_type = .optional_argument ∧ options_map.find p.options_ v = none)) ∧
        p.body s = some (.next { arg := s.arg + 2,
                                 current_positional_ := s.current_positional_,
                                 calls := s.calls ++ [(opt.handler, v)] })) ∨
    (∃ h, options_map.find p.options_ tok = none ∧
        p.positionals_[s.current_positional_]? = some h ∧
        p.body s = some (.next { arg := s.arg + 1,
                                 current_positional_ := s.current_positional_ + 1,
                                 calls := s.calls ++ [(h, tok)] })) ∨
    (options_map.find p.options_ tok = none ∧
        s.current_positional_ = p.positionals_.length ∧
        p.body s = some (.next { arg := s.arg + 1,
                                 current_positional_ := s.current_positional_,
                                 calls := s.calls })) := by
  have hlt := p.lt_length_of_cursor s tok hcur
  cases hfind : options_map.find p.options_ tok with
  | none =>
    by_cases hp : s.current_positional_ = p.positionals_.length
    · right; right; right; right
      refine ⟨rfl, hp, ?_⟩
      rw [p.body_of_plain s tok hcur hfind]
      simp [argparser.positional_case, hp, step_result.incr_arg]
    · right; right; right; left
      have hplt : s.current_positional_ < p.positionals_.length := by omega
      refine ⟨p.positionals_[s.current_positional_], rfl, List.getElem?_eq_getElem hplt, ?_⟩
      rw [p.body_of_plain s tok hcur hfind]
      simp [argparser.positional_case, hp, List.getElem?_eq_getElem hplt,
        step_result.incr_arg, scan_state.invoke]
  | some opt =>
    rw [p.body_of_registered s tok opt hcur hfind]
    cases ha : opt.arg_type with
    | no_argument =>
      right; left
      refine ⟨opt, rfl, Or.inl ha, ?_⟩
      simp [argparser.option_case, ha, step_result.incr_arg, scan_state.invoke]
    | required_argument =>
      by_cases hlast : s.arg + 1 = p.args_.length
      · left
        refine ⟨opt, rfl, ha, hlast, ?_⟩
        simp [argparser.option_case, ha, hlast, step_result.incr_arg]
      · right; right; left
        have hlt' : s.arg + 1 < p.args_.length := by omega
        refine ⟨opt, p.args_[s.arg + 1], rfl, List.getElem?_eq_getElem hlt', Or.inl ha, ?_⟩
        simp [argparser.option_case, ha, hlast, List.getElem?_eq_getElem hlt',
          step_result.incr_arg, scan_state.invoke]
    | optional_argument =>
      by_cases hlast : s.arg + 1 = p.args_.length
      · right; left
        refine ⟨opt, rfl, Or.inr ⟨ha, ?_⟩, ?_⟩
        · rintro ⟨v, hv, -⟩
          rw [List.getElem?_eq_none (by omega)] at hv
          cases hv
        · simp [argparser.option_case, ha, hlast, step_result.incr_arg, scan_state.invoke]
      · have hlt' : s.arg + 1 < p.args_.length := by omega
        have hv : p.args_[s.arg + 1]? = some p.args_[s.arg + 1] :=
          List.getElem?_eq_getElem hlt'
        cases hf : options_map.find p.options_ p.args_[s.arg + 1] with
        | none =>
          right; right; left
          refine ⟨opt, p.args_[s.arg + 1], rfl, hv, Or.inr ⟨ha, hf⟩, ?_⟩
          simp [argparser.option_case, ha, hlast, hv, hf, step_result.incr_arg,
            scan_state.invoke]
        | some d =>
          right; left
          refine ⟨opt, rfl, Or.inr ⟨ha, ?_⟩, ?_⟩
          · rintro ⟨v, hv', hnone⟩
            rw [hv] at hv'
            cases hv'
            rw [hf] at hnone
            cases hnone
          · simp [argparser.option_case, ha, hlast, hv, hf, step_result.incr_arg,
              scan_state.invoke]

theorem argparser.lt_length_of_getElem? {α : Type} (l : List α) (i : Nat) (a : α)
    (h : l[i]? = some a) : i < l.length := by
  by_contra hge
  rw [List.getElem?_eq_none (by omega)] at h
  cases h

/-- A pass from a state inside the vectors throws for a required option on the last token,
or reaches the loop test again in a state inside the vectors, the cursor further on. -/
theorem argparser.body_total {H : Type} (p : argparser H) (s : scan_state H)
    (harg : s.arg < p.args_.length)
    (hpos : s.current_positional_ ≤ p.positionals_.length) :
    (∃ t opt, p.body s = some (.thrown (argument_required_exception.ctor t)) ∧
        p.args_[s.arg]? = some t ∧ s.arg + 1 = p.args_.length ∧
        options_map.find p.options_ t = some opt ∧ opt.arg_type = .required_argument) ∨
    (∃ s', p.body s = some (.next s') ∧ s'.arg ≤ p.args_.length ∧
        s'.current_positional_ ≤ p.positionals_.length ∧ s.arg < s'.arg) := by
  have hcur : p.args_[s.arg]? = some p.args_[s.arg] := List.getElem?_eq_getElem harg
  rcases p.body_cases s _ hcur hpos with
    ⟨opt, hf, ha, hl, hb⟩ | ⟨opt, -, -, hb⟩ | ⟨opt, v, -, hv, -, hb⟩ | ⟨h, -, hh, hb⟩ |
    ⟨-, -, hb⟩
  · exact Or.inl ⟨_, opt, hb, hcur, hl, hf, ha⟩
  · exact Or.inr ⟨_, hb, by simp only; omega, hpos, by simp only; omega⟩
  · have := argparser.lt_length_of_getElem? _ _ _ hv
    exact Or.inr ⟨_, hb, by simp only; omega, hpos, by simp only; omega⟩
  · have := argparser.lt_length_of_getElem? _ _ _ hh
    exact Or.inr ⟨_, hb, by simp only; omega, by simp only; omega, by simp only; omega⟩
  · exact Or.inr ⟨_, hb, by simp only; omega, hpos, by simp only; omega⟩

theorem argparser.iterate_succ_of_next {H : Type} (p : argparser H) (n : Nat)
    (s s' : scan_state H)
    (hcur : s.arg ≠ p.args_.length) (hbody : p.body s = some (.next s')) :
    p.iterate (n + 1) s = p.iterate n s' := by
  conv_lhs => unfold argparser.iterate
  simp [hcur, hbody]

/-- The first pass of `n + 1` passes that all reach the loop test again. -/
theorem argparser.iterate_succ_inv {H : Type} (p : argparser H) (n : Nat)
    (s s' : scan_state H) (hiter : p.iterate (n + 1) s = some s') :
    s.arg ≠ p.args_.length ∧ ∃ s1, p.body s = some (.next s1) ∧ p.iterate n s1 = some s' := by
  unfold argparser.iterate at hiter
  split at hiter
  · rename_i hcur
    split at hiter
    · rename_i s1 hbody
      exact ⟨hcur, s1, hbody, hiter⟩
    · cases hiter
  · cases hiter

/-- The loop from a state inside the vectors, with a pass of fuel for every token that is
left, ends: normally at the end of the tokens, or by the exception for a required option on
the last token. The state it ends in is reached by passes of the body. -/
theorem argparser.loop_spec {H : Type} (p : argparser H) (fuel : Nat) (s : scan_state H)
    (harg : s.arg ≤ p.args_.length)
    (hpos : s.current_positional_ ≤ p.positionals_.length)
    (hfuel : p.args_.length - s.arg ≤ fuel) :
    ∃ r n, p.loop fuel s = some r ∧ p.iterate n s = some r.state ∧
      r.state.arg ≤ p.args_.length ∧
      r.state.current_positional_ ≤ p.positionals_.length ∧
      ((r.outcome = .done ∧ r.state.arg = p.args_.length) ∨
        (∃ t opt, r.outcome = .thrown (argument_required_exception.ctor t) ∧
          p.args_[r.state.arg]? = some t ∧ r.state.arg + 1 = p.args_.length ∧
          options_map.find p.options_ t = some opt ∧
          opt.arg_type = .required_argument)) := by
  induction fuel generalizing s with
  | zero =>
    have hend : s.arg = p.args_.length := by omega
    exact ⟨_, 0, p.loop_of_end 0 s hend, rfl, harg, hpos, Or.inl ⟨rfl, hend⟩⟩
  | succ fuel ih =>
    by_cases hend : s.arg = p.args_.length
    · exact ⟨_, 0, p.loop_of_end _ s hend, rfl, harg, hpos, Or.inl ⟨rfl, hend⟩⟩
    · rcases p.body_total s (by omega) hpos with
        ⟨t, opt, hb, hcur, hl, hf, ha⟩ | ⟨s', hb, harg', hpos', hlt⟩
      · exact ⟨_, 0, p.loop_of_thrown fuel s _ hend hb, rfl, harg, hpos,
          Or.inr ⟨t, opt, rfl, hcur, hl, hf, ha⟩⟩
      · obtain ⟨r, n, hloop, hiter, h1, h2, h3⟩ := ih s' harg' hpos' (by omega)
        refine ⟨r, n + 1, ?_, ?_, h1, h2, h3⟩
        · rw [p.loop_of_next fuel s s' hend hb]
          exact hloop
        · rw [p.iterate_succ_of_next n s s' hend hb]
          exact hiter

/-- The method `operator()` returns or throws, for every dispatcher: the scan ends normally
at the end of the tokens, or by the exception for a required option on the last token. -/
theorem argparser.run_spec {H : Type} (p : argparser H) :
    ∃ r n, p.run = some r ∧ p.iterate n p.entry = some r.state ∧
      r.state.arg ≤ p.args_.length ∧
      r.state.current_positional_ ≤ p.positionals_.length ∧
      ((r.outcome = .done ∧ r.state.arg = p.args_.length) ∨
        (∃ t opt, r.outcome = .thrown (argument_required_exception.ctor t) ∧
          p.args_[r.state.arg]? = some t ∧ r.state.arg + 1 = p.args_.length ∧
          options_map.find p.options_ t = some opt ∧
          opt.arg_type = .required_argument)) :=
  p.loop_spec p.args_.length p.entry (Nat.zero_le _) (Nat.zero_le _) (by simp [argparser.entry])

/-- Passes from a state inside the vectors stay inside the vectors. -/
theorem argparser.iterate_inv {H : Type} (p : argparser H) (n : Nat) (s s' : scan_state H)
    (harg : s.arg ≤ p.args_.length)
    (hpos : s.current_positional_ ≤ p.positionals_.length)
    (hiter : p.iterate n s = some s') :
    s'.arg ≤ p.args_.length ∧ s'.current_positional_ ≤ p.positionals_.length := by
  induction n generalizing s with
  | zero =>
    simp only [argparser.iterate, Option.some.injEq] at hiter
    subst hiter
    exact ⟨harg, hpos⟩
  | succ n ih =>
    obtain ⟨hcur, s1, hbody, hiter'⟩ := p.iterate_succ_inv n s s' hiter
    rcases p.body_total s (by omega) hpos with ⟨t, opt, hb, -⟩ | ⟨s2, hb, h1, h2, -⟩
    · rw [hb] at hbody
      cases hbody
    · rw [hb] at hbody
      simp only [Option.some.injEq, step_result.next.injEq] at hbody
      subst hbody
      exact ih s2 h1 h2 hiter'

theorem options_map.find_eq_none_iff {H : Type} (m : options_map H) (key : String) :
    options_map.find m key = none ↔ ∀ e ∈ m, e.1 ≠ key := by
  induction m with
  | nil => simp [options_map.find]
  | cons e rest ih =>
    obtain ⟨k, v⟩ := e
    by_cases hk : k = key
    · simp [options_map.find, hk]
    · simp [options_map.find, hk, ih]

/-! ## The ways a scan can end -/

/-- C11: with handlers that return, the scan of every dispatcher ends, and if it ends by an
exception, that is the exception for a missing argument built from the last token, which is
a registered required_argument option under the cursor. So the scan ends normally when
there is no token, and when the last token is not a registered required_argument option. -/
theorem only_missing_argument {H : Type} (p : argparser H) :
    ∃ r, p.run = some r ∧
      (∀ e, r.outcome = .thrown e →
        ∃ t opt, p.args_.getLast? = some t ∧ e = argument_required_exception.ctor t ∧
          options_map.find p.options_ t = some opt ∧ opt.arg_type = .required_argument ∧
          p.args_[r.state.arg]? = some t ∧ r.state.arg + 1 = p.args_.length) ∧
      (p.args_ = [] → r.outcome = .done) ∧
      ((¬ ∃ t opt, p.args_.getLast? = some t ∧ options_map.find p.options_ t = some opt ∧
          opt.arg_type = .required_argument) → r.outcome = .done) := by
  obtain ⟨r, n, hrun, -, -, -, hend⟩ := p.run_spec
  have hthrown : ∀ e, r.outcome = .thrown e →
      ∃ t opt, p.args_.getLast? = some t ∧ e = argument_required_exception.ctor t ∧
        options_map.find p.options_ t = some opt ∧ opt.arg_type = .required_argument ∧
        p.args_[r.state.arg]? = some t ∧ r.state.arg + 1 = p.args_.length := by
    intro e he
    rcases hend with ⟨hdone, -⟩ | ⟨t, opt, hout, hcur, hlast, hf, ha⟩
    · rw [hdone] at he
      cases he
    · rw [hout] at he
      cases he
      refine ⟨t, opt, ?_, rfl, hf, ha, hcur, hlast⟩
      rw [List.getLast?_eq_getElem?, ← hlast, ← hcur]
      simp
  refine ⟨r, hrun, hthrown, ?_, ?_⟩
  · intro hnil
    cases hout : r.outcome with
    | done => rfl
    | thrown e =>
      obtain ⟨t, -, hlast, -⟩ := hthrown e hout
      rw [hnil] at hlast
      cases hlast
  · intro hno
    cases hout : r.outcome with
    | done => rfl
    | thrown e =>
      obtain ⟨t, opt, hlast, -, hf, ha, -⟩ := hthrown e hout
      exact absurd ⟨t, opt, hlast, hf, ha⟩ hno

/-- C11 on the tokens ["-o", "x", "-v"], "-o" required and "-v" without argument: the last
token is not a required option, and the scan ends normally. -/
theorem only_missing_argument_witness :
    ∃ r, (((argparser.of_tokens String ["-o", "x", "-v"]).reg
              ["-o"] .required_argument "O").reg ["-v"] .no_argument "V").run = some r ∧
      r.outcome = .done :=
  (only_missing_argument
    (((argparser.of_tokens String ["-o", "x", "-v"]).reg
      ["-o"] .required_argument "O").reg ["-v"] .no_argument "V")).elim
    fun r h => ⟨r, h.1, h.2.2.2 (by
      rintro ⟨t, opt, hl, hf, ha⟩
      have ht : "-v" = t := by
        simpa [argparser.of_tokens, argparser.reg] using hl
      subst ht
      have hv : options_map.find
          (((argparser.of_tokens String ["-o", "x", "-v"]).reg
            ["-o"] .required_argument "O").reg ["-v"] .no_argument "V").options_ "-v"
          = some { handler := "V", arg_type := .no_argument } := by decide
      rw [hv] at hf
      cases hf
      cases ha)⟩

/-- C12: at every scan step the token under the cursor goes to the option branch, with the
descriptor found for it, if and only if a registered name is equal to it as a whole string;
otherwise the pass is the positional branch: it hands the token to the positional handler
under the pointer, or drops it, and invokes nothing else. -/
theorem exact_match {H : Type} (p : argparser H) (s : scan_state H) (tok : String)
    (hcur : p.args_[s.arg]? = some tok) :
    ((∃ e ∈ p.options_, e.1 = tok) →
      ∃ opt, options_map.find p.options_ tok = some opt ∧
        p.body s = (p.option_case s tok opt).map step_result.incr_arg) ∧
    ((¬ ∃ e ∈ p.options_, e.1 = tok) →
      options_map.find p.options_ tok = none ∧
      p.body s = (p.positional_case s tok).map step_result.incr_arg ∧
      ∀ s', p.body s = some (.next s') →
        s'.calls = s.calls ∨
          ∃ h, p.positionals_[s.current_positional_]? = some h ∧
            s'.calls = s.calls ++ [(h, tok)]) := by
  constructor
  · intro hreg
    cases hf : options_map.find p.options_ tok with
    | none =>
      obtain ⟨e, he, hk⟩ := hreg
      exact absurd hk ((options_map.find_eq_none_iff _ _).1 hf e he)
    | some opt => exact ⟨opt, rfl, p.body_of_registered s tok opt hcur hf⟩
  · intro hplain
    have hf : options_map.find p.options_ tok = none := by
      rw [options_map.find_eq_none_iff]
      intro e he hk
      exact hplain ⟨e, he, hk⟩
    refine ⟨hf, p.body_of_plain s tok hcur hf, ?_⟩
    intro s' hbody
    rw [p.body_of_plain s tok hcur hf] at hbody
    unfold argparser.positional_case at hbody
    split at hbody
    · cases hh : p.positionals_[s.current_positional_]? with
      | none => simp [hh] at hbody
      | some h =>
        simp only [hh, Option.map_some', step_result.incr_arg, Option.some.injEq,
          step_result.next.injEq] at hbody
        subst hbody
        exact Or.inr ⟨h, rfl, rfl⟩
    · simp only [Option.map_some', step_result.incr_arg, Option.some.injEq,
        step_result.next.injEq] at hbody
      subst hbody
      exact Or.inl rfl

/-- C12, the scenario of the claim: registry "--opt" required, "-a" and "-b" without
argument, tokens ["--opt=value", "--op", "-ab"] and three positional handlers; no option
handler is invoked, and the three tokens go to the positional handlers in order. -/
theorem exact_match_witness :
    (((((((argparser.of_tokens String ["--opt=value", "--op", "-ab"]).reg
        ["--opt"] .required_argument "O").reg ["-a"] .no_argument "A").reg
        ["-b"] .no_argument "B").pos "P0").pos "P1").pos "P2").run
      = some { state := { arg := 3, current_positional_ := 3,
                          calls := [("P0", "--opt=value"), ("P1", "--op"), ("P2", "-ab")] },
               outcome := .done } ∧
    options_map.find
        (((((((argparser.of_tokens String ["--opt=value", "--op", "-ab"]).reg
          ["--opt"] .required_argument "O").reg ["-a"] .no_argument "A").reg
          ["-b"] .no_argument "B").pos "P0").pos "P1").pos "P2").options_ "--opt=value"
      = none :=
  ⟨by decide,
    ((exact_match
      (((((((argparser.of_tokens String ["--opt=value", "--op", "-ab"]).reg
        ["--opt"] .required_argument "O").reg ["-a"] .no_argument "A").reg
        ["-b"] .no_argument "B").pos "P0").pos "P1").pos "P2")
      { arg := 0, current_positional_ := 0, calls := [] } "--opt=value" (by decide)).2
      (by decide)).1⟩

/-! ## Construction -/

/-- The passes of the constructor loop that stay inside `argv` append the elements of
`argv` from index `i` on, in order. -/
theorem argparser.ctor_loop_spec (argv : List String) (left i : Nat) (args : List String)
    (hin : i + left ≤ argv.length) :
    argparser.ctor_loop argv left i args = some (args ++ (argv.drop i).take left) := by
  induction left generalizing i args with
  | zero => simp [argparser.ctor_loop]
  | succ left ih =>
    have hlt : i < argv.length := by omega
    have hdrop : argv.drop i = argv[i] :: argv.drop (i + 1) := List.drop_eq_getElem_cons hlt
    simp only [argparser.ctor_loop, List.getElem?_eq_getElem hlt]
    rw [ih (i + 1) (args ++ [argv[i]]) (by omega), hdrop, List.take_succ_cons,
      List.append_assoc, List.singleton_append]

/-- C13: for every argument vector argv of argc elements, argc an int that is not negative,
the constructor gives the dispatcher whose tokens are argv without its first element, in
the original order, and nothing registered; there are argc - 1 of them, token i being
argv[i + 1], and none when argc is 1 or 0. -/
theorem ctor_drops_program_name (H : Type) (argc : Int) (argv : List String)
    (hnonneg : 0 ≤ argc) (hint : argc < 2 ^ 31) (hlen : (argv.length : Int) = argc) :
    argparser.ctor H argc argv = some (argparser.of_tokens H argv.tail) ∧
    argv.tail.length = argv.length - 1 ∧
    (∀ i : Nat, argv.tail[i]? = argv[i + 1]?) ∧
    (argc ≤ 1 → argv.tail = []) := by
  have hn : (argc % 2 ^ 64).toNat = argv.length := by
    rw [Int.emod_eq_of_lt hnonneg (by omega), ← hlen]
    simp
  refine ⟨?_, by simp, ?_, ?_⟩
  · unfold argparser.ctor
    simp only [hn]
    cases argv with
    | nil => simp [argparser.ctor_loop, argparser.of_tokens]
    | cons a rest =>
      rw [argparser.ctor_loop_spec (a :: rest) _ 1 [] (by simp; omega)]
      simp [argparser.of_tokens]
  · intro i
    cases argv with
    | nil => simp
    | cons a rest => simp
  · intro hle
    cases argv with
    | nil => rfl
    | cons a rest =>
      cases rest with
      | nil => rfl
      | cons b rest' =>
        simp only [List.length_cons] at hlen
        omega

/-- C13 on the argument vector ["prog", "-v", "file"]: the tokens are "-v" and "file". -/
theorem ctor_drops_program_name_witness :
    argparser.ctor String 3 ["prog", "-v", "file"]
      = some (argparser.of_tokens String ["-v", "file"]) :=
  (ctor_drops_program_name String 3 ["prog", "-v", "file"]
    (by decide) (by decide) (by decide)).1

/-! ## The effect of `reg` -/

/-- The binding of a name after a run of `emplace` calls for `names` with one descriptor:
the old binding if there was one, else the descriptor if the name is among `names`. -/
theorem options_map.find_foldl_emplace {H : Type} (names : List String) (m : options_map H)
    (v : arg_options H) (key : String) :
    options_map.find (names.foldl (fun m opt => options_map.emplace m opt v) m) key
      = match options_map.find m key with
        | some d => some d
        | none => if key ∈ names then some v else none := by
  induction names generalizing m with
  | nil => cases hm : options_map.find m key <;> simp [hm]
  | cons n rest ih =>
    rw [List.foldl_cons, ih]
    by_cases hk : n = key
    · subst hk
      rw [options_map.find_emplace_self]
      cases hm : options_map.find m n <;> simp [hm]
    · rw [options_map.find_emplace_of_ne m n key v hk]
      have hne : ¬ key = n := fun h => hk h.symm
      cases hm : options_map.find m key <;> simp [hm, hne]

/-- C15, counterexample: with "-b" registered as no_argument for h1, the call
reg(["-a", "-b"], required_argument, h2) binds "-a" to the new descriptor and leaves "-b",
a name of the list, bound to h1 as no_argument. -/
theorem reg_binds_every_name_counterexample :
    "-b" ∈ ["-a", "-b"] ∧
    options_map.find
        (((argparser.of_tokens String []).reg ["-b"] .no_argument "h1").reg
          ["-a", "-b"] .required_argument "h2").options_ "-b"
      ≠ some { handler := "h2", arg_type := .required_argument } ∧
    options_map.find
        (((argparser.of_tokens String []).reg ["-b"] .no_argument "h1").reg
          ["-a", "-b"] .required_argument "h2").options_ "-b"
      = some { handler := "h1", arg_type := .no_argument } := by
  decide

/-- C15, amended: for every dispatcher state, list of names, arity a and handler h, after
reg(names, a, h) every name that was bound before, in names or not, keeps its binding;
every name in names that was not bound is bound to the descriptor of a and h; every other
name stays unbound; the positional handlers, the tokens and the positional pointer are
unchanged; and with an empty list of names the whole state is unchanged. -/
theorem reg_frame {H : Type} (p : argparser H) (names : List String) (a : arg_type_t)
    (h : H) :
    (∀ key d, options_map.find p.options_ key = some d →
      options_map.find (p.reg names a h).options_ key = some d) ∧
    (∀ key, options_map.find p.options_ key = none → key ∈ names →
      options_map.find (p.reg names a h).options_ key
        = some { handler := h, arg_type := a }) ∧
    (∀ key, options_map.find p.options_ key = none → key ∉ names →
      options_map.find (p.reg names a h).options_ key = none) ∧
    (p.reg names a h).positionals_ = p.positionals_ ∧
    (p.reg names a h).args_ = p.args_ ∧
    (p.reg names a h).current_positional_ = p.current_positional_ ∧
    p.reg [] a h = p := by
  refine ⟨?_, ?_, ?_, rfl, rfl, rfl, rfl⟩
  · intro key d hd
    simp [argparser.reg, options_map.find_foldl_emplace, hd]
  · intro key hnone hmem
    simp [argparser.reg, options_map.find_foldl_emplace, hnone, hmem]
  · intro key hnone hmem
    simp [argparser.reg, options_map.find_foldl_emplace, hnone, hmem]

/-- C15 (amended) at the input of the counterexample: "-a" was not bound and gets the new
descriptor. -/
theorem reg_frame_witness :
    options_map.find
        (((argparser.of_tokens String []).reg ["-b"] .no_argument "h1").reg
          ["-a", "-b"] .required_argument "h2").options_ "-a"
      = some { handler := "h2", arg_type := .required_argument } :=
  (reg_frame ((argparser.of_tokens String []).reg ["-b"] .no_argument "h1")
    ["-a", "-b"] .required_argument "h2").2.1 "-a" (by decide) (by decide)

/-! ## A second scan -/

/-- The loop does not read the member `current_positional_` of the dispatcher: it works on
the value that `operator()` has set on entry. -/
theorem argparser.loop_current_positional {H : Type} (p : argparser H) (k fuel : Nat)
    (s : scan_state H) :
    argparser.loop { p with current_positional_ := k } fuel s = p.loop fuel s := by
  induction fuel generalizing s with
  | zero =>
    unfold argparser.loop
    rfl
  | succ fuel ih =>
    unfold argparser.loop
    have hbody : argparser.body { p with current_positional_ := k } s = p.body s := rfl
    simp only [hbody]
    split
    · cases hb : p.body s with
      | none => rfl
      | some r =>
        cases r with
        | next s' => exact ih s'
        | thrown e => rfl
    · rfl

/-- C20: `operator()` sets the cursor and the positional pointer to `begin()` on entry,
whatever an earlier scan left in `current_positional_`. So for every dispatcher the scan
has a result, and the scan of the dispatcher that this scan leaves behind has the same
result: the same end, normal or by the same exception, the same invocations in the same
order, the positional handlers taken from the first one on again. -/
theorem scan_repeatable {H : Type} (p : argparser H) :
    ∃ r, p.run = some r ∧ (p.after r).run = some r ∧
      (p.after r).current_positional_ = r.state.current_positional_ ∧
      (p.after r).entry = { arg := 0, current_positional_ := 0, calls := [] } ∧
      ∀ k, argparser.run { p with current_positional_ := k } = p.run := by
  obtain ⟨r, n, hrun, -⟩ := p.run_spec
  have hk : ∀ k, argparser.run { p with current_positional_ := k } = p.run := by
    intro k
    exact p.loop_current_positional k p.args_.length p.entry
  refine ⟨r, hrun, ?_, rfl, rfl, hk⟩
  rw [← hrun]
  exact hk r.state.current_positional_

/-- C20 on the tokens ["a", "-o"], "-o" required, one positional handler: the first scan
ends by the exception with the pointer behind the handler; the second scan starts from the
first handler again and ends in the same way. -/
theorem scan_repeatable_witness :
    ((argparser.of_tokens String ["a", "-o"]).reg ["-o"] .required_argument "O" |>.pos "P").run
      = some { state := { arg := 1, current_positional_ := 1, calls := [("P", "a")] },
               outcome := .thrown (argument_required_exception.ctor "-o") } ∧
    (((argparser.of_tokens String ["a", "-o"]).reg ["-o"] .required_argument "O" |>.pos
        "P").after
        { state := { arg := 1, current_positional_ := 1, calls := [("P", "a")] },
          outcome := .thrown (argument_required_exception.ctor "-o") }).run
      = some { state := { arg := 1, current_positional_ := 1, calls := [("P", "a")] },
               outcome := .thrown (argument_required_exception.ctor "-o") } :=
  ⟨by decide,
    ((scan_repeatable
      ((argparser.of_tokens String ["a", "-o"]).reg ["-o"] .required_argument "O" |>.pos
        "P")).elim
      fun r h => by
        have hr : r = { state := { arg := 1, current_positional_ := 1, calls := [("P", "a")] },
                        outcome := .thrown (argument_required_exception.ctor "-o") } := by
          have h1 := h.1
          have h0 : ((argparser.of_tokens String ["a", "-o"]).reg
              ["-o"] .required_argument "O" |>.pos "P").run
              = some { state := { arg := 1, current_positional_ := 1, calls := [("P", "a")] },
                       outcome := .thrown (argument_required_exception.ctor "-o") } := by
            decide
          rw [h0] at h1
          exact (Option.some.inj h1).symm
        rw [← hr]
        exact h.2.1)⟩

/-! ## The cursor -/

/-- A pass that has a result started with the cursor on a token. -/
theorem argparser.cursor_of_body {H : Type} (p : argparser H) (s : scan_state H)
    (r : step_result H) (hbody : p.body s = some r) : ∃ tok, p.args_[s.arg]? = some tok := by
  cases hcur : p.args_[s.arg]? with
  | none => simp [argparser.body, hcur] at hbody
  | some tok => exact ⟨tok, rfl⟩

/-- C17: for every dispatcher the scan has a result, which is the normal end with the
cursor at the end of the tokens, or the exception for a missing argument with the cursor on
the last token. In every state the scan reaches the cursor is at most the number of tokens;
a pass from there that does not throw moves it forward, by exactly two when the token is a
required option, or an optional option followed by a token that is no registered name, and
the next token was passed to the handler, and by exactly one otherwise: for a token that is
no registered name, for a no_argument option, and for an optional option that took no
value. After the pass the cursor is still at most the number of tokens. -/
theorem cursor_monotone {H : Type} (p : argparser H) :
    (∃ r, p.run = some r ∧
      ((r.outcome = .done ∧ r.state.arg = p.args_.length) ∨
        (∃ t, r.outcome = .thrown (argument_required_exception.ctor t) ∧
          r.state.arg + 1 = p.args_.length))) ∧
    ∀ n s, p.iterate n p.entry = some s →
      s.arg ≤ p.args_.length ∧
      ∀ s' tok, p.args_[s.arg]? = some tok → p.body s = some (.next s') →
        s.arg < s'.arg ∧ s'.arg ≤ p.args_.length ∧
        ((s'.arg = s.arg + 2 ∧
            ∃ opt v, options_map.find p.options_ tok = some opt ∧
              p.args_[s.arg + 1]? = some v ∧
              (opt.arg_type = .required_argument ∨
                (opt.arg_type = .optional_argument ∧
                  options_map.find p.options_ v = none)) ∧
              s'.calls = s.calls ++ [(opt.handler, v)]) ∨
          (s'.arg = s.arg + 1 ∧
            (options_map.find p.options_ tok = none ∨
              ∃ opt, options_map.find p.options_ tok = some opt ∧
                (opt.arg_type = .no_argument ∨
                  (opt.arg_type = .optional_argument ∧
                    ¬ ∃ v, p.args_[s.arg + 1]? = some v ∧
                      options_map.find p.options_ v = none))))) := by
  constructor
  · obtain ⟨r, n, hrun, -, -, -, hend⟩ := p.run_spec
    refine ⟨r, hrun, ?_⟩
    rcases hend with hdone | ⟨t, opt, hout, -, hlast, -⟩
    · exact Or.inl hdone
    · exact Or.inr ⟨t, hout, hlast⟩
  · intro n s hreach
    obtain ⟨harg, hpos⟩ :=
      p.iterate_inv n p.entry s (Nat.zero_le _) (Nat.zero_le _) hreach
    refine ⟨harg, ?_⟩
    intro s' tok hcur hbody
    rcases p.body_cases s tok hcur hpos with
      ⟨opt, -, -, -, hb⟩ | ⟨opt, hf, ha, hb⟩ | ⟨opt, v, hf, hv, ha, hb⟩ | ⟨h, hf, -, hb⟩ |
      ⟨hf, -, hb⟩
    · rw [hb] at hbody
      cases hbody
    · rw [hb] at hbody
      simp only [Option.some.injEq, step_result.next.injEq] at hbody
      subst hbody
      have := p.lt_length_of_cursor s tok hcur
      exact ⟨by simp only; omega, by simp only; omega, Or.inr ⟨rfl, Or.inr ⟨opt, hf, ha⟩⟩⟩
    · rw [hb] at hbody
      simp only [Option.some.injEq, step_result.next.injEq] at hbody
      subst hbody
      have := argparser.lt_length_of_getElem? _ _ _ hv
      exact ⟨by simp only; omega, by simp only; omega,
        Or.inl ⟨rfl, opt, v, hf, hv, ha, rfl⟩⟩
    · rw [hb] at hbody
      simp only [Option.some.injEq, step_result.next.injEq] at hbody
      subst hbody
      have := p.lt_length_of_cursor s tok hcur
      exact ⟨by simp only; omega, by simp only; omega, Or.inr ⟨rfl, Or.inl hf⟩⟩
    · rw [hb] at hbody
      simp only [Option.some.injEq, step_result.next.injEq] at hbody
      subst hbody
      have := p.lt_length_of_cursor s tok hcur
      exact ⟨by simp only; omega, by simp only; omega, Or.inr ⟨rfl, Or.inl hf⟩⟩

/-- C17 on the tokens ["-o", "x", "y"], "-o" required: the scan has a result, and the
cursor of the state after one pass is 2, which is at most the number of tokens. -/
theorem cursor_monotone_witness :
    (∃ r, ((argparser.of_tokens String ["-o", "x", "y"]).reg
        ["-o"] .required_argument "O").run = some r) ∧
    (2 : Nat) ≤ ((argparser.of_tokens String ["-o", "x", "y"]).reg
        ["-o"] .required_argument "O").args_.length :=
  ⟨(cursor_monotone ((argparser.of_tokens String ["-o", "x", "y"]).reg
      ["-o"] .required_argument "O")).1.elim fun r h => ⟨r, h.1⟩,
    ((cursor_monotone ((argparser.of_tokens String ["-o", "x", "y"]).reg
      ["-o"] .required_argument "O")).2 1
      { arg := 2, current_positional_ := 0, calls := [("O", "x")] } (by decide)).1⟩

/-! ## The positional pointer -/

theorem argparser.plain_passes_succ_of_next {H : Type} (p : argparser H) (n : Nat)
    (s s' : scan_state H) (tok : String)
    (hcur : p.args_[s.arg]? = some tok) (hbody : p.body s = some (.next s')) :
    p.plain_passes (n + 1) s
      = (if (options_map.find p.options_ tok).isNone then 1 else 0) + p.plain_passes n s' := by
  conv_lhs => unfold argparser.plain_passes
  simp [hcur, hbody]

/-- The positional pointer after `n` passes: it has moved once for every token that is no
registered name, up to the end of `positionals_`. -/
theorem argparser.current_positional_of_iterate {H : Type} (p : argparser H) (n : Nat)
    (s s' : scan_state H)
    (hpos : s.current_positional_ ≤ p.positionals_.length)
    (hiter : p.iterate n s = some s') :
    s'.current_positional_
      = min (s.current_positional_ + p.plain_passes n s) p.positionals_.length := by
  induction n generalizing s with
  | zero =>
    simp only [argparser.iterate, Option.some.injEq] at hiter
    subst hiter
    simp only [argparser.plain_passes]
    omega
  | succ n ih =>
    obtain ⟨hne, s1, hbody, hiter'⟩ := p.iterate_succ_inv n s s' hiter
    obtain ⟨tok, hcur⟩ := p.cursor_of_body s _ hbody
    rw [p.plain_passes_succ_of_next n s s1 tok hcur hbody]
    rcases p.body_cases s tok hcur hpos with
      ⟨opt, -, -, -, hb⟩ | ⟨opt, hf, -, hb⟩ | ⟨opt, v, hf, -, -, hb⟩ | ⟨h, hf, hh, hb⟩ |
      ⟨hf, hm, hb⟩
    · rw [hb] at hbody
      cases hbody
    · rw [hb] at hbody
      simp only [Option.some.injEq, step_result.next.injEq] at hbody
      rw [ih s1 (by rw [← hbody]; exact hpos) hiter', ← hbody]
      simp [hf]
    · rw [hb] at hbody
      simp only [Option.some.injEq, step_result.next.injEq] at hbody
      rw [ih s1 (by rw [← hbody]; exact hpos) hiter', ← hbody]
      simp [hf]
    · rw [hb] at hbody
      simp only [Option.some.injEq, step_result.next.injEq] at hbody
      have := argparser.lt_length_of_getElem? _ _ _ hh
      rw [ih s1 (by rw [← hbody]; simp only; omega) hiter', ← hbody]
      simp only [hf, Option.isNone_none, if_true]
      omega
    · rw [hb] at hbody
      simp only [Option.some.injEq, step_result.next.injEq] at hbody
      rw [ih s1 (by rw [← hbody]; exact hpos) hiter', ← hbody]
      simp only [hf, Option.isNone_none, if_true]
      omega

/-- The count of the tokens that are no registered name, one pass further. -/
theorem argparser.plain_passes_succ_of_iterate {H : Type} (p : argparser H) (n : Nat)
    (s s' s'' : scan_state H) (tok : String)
    (hiter : p.iterate n s = some s')
    (hcur : p.args_[s'.arg]? = some tok) (hbody : p.body s' = some (.next s'')) :
    p.plain_passes (n + 1) s
      = p.plain_passes n s + (if (options_map.find p.options_ tok).isNone then 1 else 0) := by
  induction n generalizing s with
  | zero =>
    simp only [argparser.iterate, Option.some.injEq] at hiter
    subst hiter
    rw [p.plain_passes_succ_of_next 0 s s'' tok hcur hbody]
    simp [argparser.plain_passes]
  | succ n ih =>
    obtain ⟨hne, s1, hb1, hiter'⟩ := p.iterate_succ_inv n s s' hiter
    obtain ⟨tok1, hcur1⟩ := p.cursor_of_body s _ hb1
    rw [p.plain_passes_succ_of_next (n + 1) s s1 tok1 hcur1 hb1,
      p.plain_passes_succ_of_next n s s1 tok1 hcur1 hb1, ih s1 hiter']
    omega

/-- C14: when the scan, after n passes, has the cursor on a token that is no registered
name, and i such tokens were under the cursor in the passes before, the positional pointer
is at the handler registered i-th (counting from 0), or at the end when there are at most i
handlers. In the first case the pass invokes that handler with the token, and nothing else,
and moves the pointer by one; in the second case it invokes nothing and leaves the pointer
at the end; in both cases the cursor moves by one, without exception, and the count of
such tokens is i + 1 afterwards. So the pointer only moves forward, and a handler that was
used is not used again in the scan. -/
theorem positional_order {H : Type} (p : argparser H) (n : Nat) (s : scan_state H)
    (tok : String)
    (hreach : p.iterate n p.entry = some s)
    (hcur : p.args_[s.arg]? = some tok)
    (hplain : options_map.find p.options_ tok = none) :
    s.current_positional_ = min (p.plain_passes n p.entry) p.positionals_.length ∧
    (∀ h, p.positionals_[p.plain_passes n p.entry]? = some h →
      p.body s = some (.next { arg := s.arg + 1,
                               current_positional_ := p.plain_passes n p.entry + 1,
                               calls := s.calls ++ [(h, tok)] })) ∧
    (p.positionals_.length ≤ p.plain_passes n p.entry →
      p.body s = some (.next { arg := s.arg + 1,
                               current_positional_ := p.positionals_.length,
                               calls := s.calls })) ∧
    p.plain_passes (n + 1) p.entry = p.plain_passes n p.entry + 1 := by
  have hcp := p.current_positional_of_iterate n p.entry s (Nat.zero_le _) hreach
  have hzero : p.entry.current_positional_ = 0 := rfl
  rw [hzero, Nat.zero_add] at hcp
  have hpos : s.current_positional_ ≤ p.positionals_.length := by
    rw [hcp]
    omega
  have hbody : ∃ s', p.body s = some (.next s') := by
    rcases p.body_cases s tok hcur hpos with
      ⟨opt, hf, -⟩ | ⟨opt, hf, -⟩ | ⟨opt, v, hf, -⟩ | ⟨h, -, -, hb⟩ | ⟨-, -, hb⟩
    · rw [hplain] at hf
      cases hf
    · rw [hplain] at hf
      cases hf
    · rw [hplain] at hf
      cases hf
    · exact ⟨_, hb⟩
    · exact ⟨_, hb⟩
  refine ⟨hcp, ?_, ?_, ?_⟩
  · intro h hh
    have hlt := argparser.lt_length_of_getElem? _ _ _ hh
    have hi : s.current_positional_ = p.plain_passes n p.entry := by
      rw [hcp]
      omega
    have hne : s.current_positional_ ≠ p.positionals_.length := by omega
    have hh' : p.positionals_[s.current_positional_]? = some h := by
      rw [hi]
      exact hh
    rw [p.body_of_plain s tok hcur hplain, ← hi]
    simp [argparser.positional_case, hne, hh', step_result.incr_arg, scan_state.invoke]
  · intro hle
    have hi : s.current_positional_ = p.positionals_.length := by
      rw [hcp]
      omega
    rw [p.body_of_plain s tok hcur hplain]
    simp [argparser.positional_case, hi, step_result.incr_arg]
  · obtain ⟨s', hb⟩ := hbody
    rw [p.plain_passes_succ_of_iterate n p.entry s s' tok hreach hcur hb]
    simp [hplain]

/-- C14 on the tokens ["a", "-v", "b", "c"], "-v" without argument, and the positional
handlers P0, P1: after two passes the cursor is on "b", one token that is no registered name
came before, and the pass hands "b" to P1. -/
theorem positional_order_witness :
    ((((argparser.of_tokens String ["a", "-v", "b", "c"]).reg
        ["-v"] .no_argument "V").pos "P0").pos "P1").body
        { arg := 2, current_positional_ := 1, calls := [("P0", "a"), ("V", "")] }
      = some (.next { arg := 3, current_positional_ := 2,
                      calls := [("P0", "a"), ("V", ""), ("P1", "b")] }) :=
  (positional_order
    ((((argparser.of_tokens String ["a", "-v", "b", "c"]).reg
        ["-v"] .no_argument "V").pos "P0").pos "P1") 2
    { arg := 2, current_positional_ := 1, calls := [("P0", "a"), ("V", "")] } "b"
    (by decide) (by decide) (by decide)).2.1 "P1" (by decide)

/-! ## The scan of a prefix of the tokens -/

/-- A pass that leaves the cursor at most at `i` is the same pass when only the first `i`
tokens are there. -/
theorem argparser.body_take {H : Type} (p : argparser H) (i : Nat) (s s1 : scan_state H)
    (hi : i ≤ p.args_.length)
    (hpos : s.current_positional_ ≤ p.positionals_.length)
    (hbody : p.body s = some (.next s1)) (hle : s1.arg ≤ i) :
    argparser.body { p with args_ := p.args_.take i } s = some (.next s1) := by
  obtain ⟨tok, hcur⟩ := p.cursor_of_body s _ hbody
  have hlt := p.arg_lt_of_body s s1 hbody
  have hlen : (p.args_.take i).length = i := by
    rw [List.length_take]
    omega
  have hcur' : (p.args_.take i)[s.arg]? = some tok := by
    rw [List.getElem?_take_of_lt (by omega)]
    exact hcur
  rcases p.body_cases s tok hcur hpos with
    ⟨opt, -, -, -, hb⟩ | ⟨opt, hf, ha, hb⟩ | ⟨opt, v, hf, hv, ha, hb⟩ | ⟨h, hf, hh, hb⟩ |
    ⟨hf, hm, hb⟩
  · rw [hb] at hbody
    cases hbody
  · rw [hb] at hbody
    simp only [Option.some.injEq, step_result.next.injEq] at hbody
    subst hbody
    rcases ha with ha | ⟨ha, hnone⟩
    · simp only [argparser.body, hcur', hf, argparser.option_case, ha]
      simp [step_result.incr_arg, scan_state.invoke]
    · by_cases h1 : s.arg + 1 = i
      · simp only [argparser.body, hcur', hf, argparser.option_case, ha, hlen]
        simp [h1, step_result.incr_arg, scan_state.invoke]
      · have hlt1 : s.arg + 1 < i := by
          simp only at hle
          omega
        have hv : p.args_[s.arg + 1]? = some p.args_[s.arg + 1] :=
          List.getElem?_eq_getElem (by omega)
        have hv' : (p.args_.take i)[s.arg + 1]? = some p.args_[s.arg + 1] := by
          rw [List.getElem?_take_of_lt hlt1]
          exact hv
        cases hfv : options_map.find p.options_ p.args_[s.arg + 1] with
        | none => exact absurd ⟨_, hv, hfv⟩ hnone
        | some d =>
          simp only [argparser.body, hcur', hf, argparser.option_case, ha, hlen, hv', hfv]
          simp [h1, step_result.incr_arg, scan_state.invoke]
  · rw [hb] at hbody
    simp only [Option.some.injEq, step_result.next.injEq] at hbody
    subst hbody
    have hlt1 : s.arg + 1 < i := by
      simp only at hle
      omega
    have h1 : s.arg + 1 ≠ i := by omega
    have hv' : (p.args_.take i)[s.arg + 1]? = some v := by
      rw [List.getElem?_take_of_lt hlt1]
      exact hv
    rcases ha with ha | ⟨ha, hnone⟩
    · simp only [argparser.body, hcur', hf, argparser.option_case, ha, hlen, hv']
      simp [h1, step_result.incr_arg, scan_state.invoke]
    · simp only [argparser.body, hcur', hf, argparser.option_case, ha, hlen, hv', hnone]
      simp [h1, step_result.incr_arg, scan_state.invoke]
  · rw [hb] at hbody
    simp only [Option.some.injEq, step_result.next.injEq] at hbody
    subst hbody
    have hne : s.current_positional_ ≠ p.positionals_.length := by
      have := argparser.lt_length_of_getElem? _ _ _ hh
      omega
    simp only [argparser.body, hcur', hf, argparser.positional_case, hh]
    simp [hne, step_result.incr_arg, scan_state.invoke]
  · rw [hb] at hbody
    simp only [Option.some.injEq, step_result.next.injEq] at hbody
    subst hbody
    simp only [argparser.body, hcur', hf, argparser.positional_case]
    simp [hm, step_result.incr_arg]

/-- Passes that leave the cursor at most at `i` are the same passes when only the first `i`
tokens are there. -/
theorem argparser.iterate_take {H : Type} (p : argparser H) (i n : Nat)
    (s s' : scan_state H)
    (hi : i ≤ p.args_.length)
    (harg : s.arg ≤ p.args_.length)
    (hpos : s.current_positional_ ≤ p.positionals_.length)
    (hiter : p.iterate n s = some s') (hle : s'.arg ≤ i) :
    argparser.iterate { p with args_ := p.args_.take i } n s = some s' := by
  induction n generalizing s with
  | zero =>
    simp only [argparser.iterate, Option.some.injEq] at hiter
    subst hiter
    rfl
  | succ n ih =>
    obtain ⟨hne, s1, hbody, hiter'⟩ := p.iterate_succ_inv n s s' hiter
    have hge := p.arg_ge_of_iterate n s1 s' hiter'
    have hlt := p.arg_lt_of_body s s1 hbody
    have hbody' := p.body_take i s s1 hi hpos hbody (by omega)
    obtain ⟨harg1, hpos1⟩ := p.iterate_inv 1 s s1 harg hpos (by
      rw [p.iterate_succ_of_next 0 s s1 hne hbody]
      rfl)
    have hne' : s.arg ≠ (argparser.mk (p.args_.take i) p.positionals_ p.current_positional_
        p.options_).args_.length := by
      simp only [List.length_take]
      omega
    rw [argparser.iterate_succ_of_next _ n s s1 hne' hbody']
    exact ih s1 harg1 hpos1 hiter'

/-- C16: when the scan ends by the exception for a missing argument with the cursor at
index i, the scan of the dispatcher with only the first i tokens ends normally, and in the
same state: the invocations made before the exception are exactly the invocations of that
scan, in the same order, and the positional pointer is where that scan leaves it. Nothing
was invoked for the token at index i, which is the last one. -/
theorem no_rollback {H : Type} (p : argparser H) (s : scan_state H)
    (e : argument_required_exception)
    (hrun : p.run = some { state := s, outcome := .thrown e }) :
    argparser.run { p with args_ := p.args_.take s.arg }
      = some { state := s, outcome := .done } ∧
    s.arg + 1 = p.args_.length ∧
    (p.args_.take s.arg).length = s.arg ∧
    ∃ n, p.iterate n p.entry = some s := by
  obtain ⟨r, n, hrun', hiter, harg, hpos, hend⟩ := p.run_spec
  rw [hrun] at hrun'
  simp only [Option.some.injEq] at hrun'
  subst hrun'
  simp only at hiter harg hpos hend
  rcases hend with ⟨hdone, -⟩ | ⟨t, opt, -, -, hlast, -⟩
  · cases hdone
  · have hlen : (p.args_.take s.arg).length = s.arg := by
      rw [List.length_take]
      omega
    have hiter' := p.iterate_take s.arg n p.entry s (by omega) (Nat.zero_le _)
      (Nat.zero_le _) hiter (Nat.le_refl _)
    refine ⟨?_, hlast, hlen, n, hiter⟩
    rw [argparser.run_of_iterate _ n s hiter' (by simp only [hlen]; omega)]
    exact argparser.loop_of_end _ _ s hlen.symm

/-- C16 on the tokens ["a", "-v", "-o"], "-v" without argument, "-o" required, one
positional handler: the scan ends by the exception at index 2, and the scan of ["a", "-v"]
ends normally with the same two invocations. -/
theorem no_rollback_witness :
    ((((argparser.of_tokens String ["a", "-v", "-o"]).reg ["-v"] .no_argument "V").reg
          ["-o"] .required_argument "O").pos "P").run
      = some { state := { arg := 2, current_positional_ := 1,
                          calls := [("P", "a"), ("V", "")] },
               outcome := .thrown (argument_required_exception.ctor "-o") } ∧
    argparser.run
        { (((argparser.of_tokens String ["a", "-v", "-o"]).reg ["-v"] .no_argument "V").reg
              ["-o"] .required_argument "O").pos "P" with
          args_ := ["a", "-v"] }
      = some { state := { arg := 2, current_positional_ := 1,
                          calls := [("P", "a"), ("V", "")] },
               outcome := .done } :=
  ⟨by decide,
    (no_rollback
      ((((argparser.of_tokens String ["a", "-v", "-o"]).reg ["-v"] .no_argument "V").reg
          ["-o"] .required_argument "O").pos "P")
      { arg := 2, current_positional_ := 1, calls := [("P", "a"), ("V", "")] }
      (argument_required_exception.ctor "-o") (by decide)).1⟩

/-! ## What becomes of every token -/

theorem argparser.values_taken_succ_of_next {H : Type} (p : argparser H) (n : Nat)
    (s s' : scan_state H) (hbody : p.body s = some (.next s')) :
    p.values_taken (n + 1) s
      = (if s'.arg = s.arg + 2 then 1 else 0) + p.values_taken n s' := by
  conv_lhs => unfold argparser.values_taken
  simp [hbody]

theorem argparser.discarded_succ_of_next {H : Type} (p : argparser H) (n : Nat)
    (s s' : scan_state H) (hbody : p.body s = some (.next s')) :
    p.discarded (n + 1) s
      = (if s'.calls.length = s.calls.length then 1 else 0) + p.discarded n s' := by
  conv_lhs => unfold argparser.discarded
  simp [hbody]

/-- After `n` passes the cursor has moved by one for every pass and by one more for every
value taken, and every pass has added one invocation or none. -/
theorem argparser.roles_of_iterate {H : Type} (p : argparser H) (n : Nat)
    (s s' : scan_state H)
    (hpos : s.current_positional_ ≤ p.positionals_.length)
    (hiter : p.iterate n s = some s') :
    s'.arg = s.arg + n + p.values_taken n s ∧
    s'.calls.length + p.discarded n s = s.calls.length + n := by
  induction n generalizing s with
  | zero =>
    simp only [argparser.iterate, Option.some.injEq] at hiter
    subst hiter
    simp [argparser.values_taken, argparser.discarded]
  | succ n ih =>
    obtain ⟨hne, s1, hbody, hiter'⟩ := p.iterate_succ_inv n s s' hiter
    obtain ⟨tok, hcur⟩ := p.cursor_of_body s _ hbody
    rw [p.values_taken_succ_of_next n s s1 hbody, p.discarded_succ_of_next n s s1 hbody]
    rcases p.body_cases s tok hcur hpos with
      ⟨opt, -, -, -, hb⟩ | ⟨opt, -, -, hb⟩ | ⟨opt, v, -, -, -, hb⟩ | ⟨h, -, hh, hb⟩ |
      ⟨-, -, hb⟩
    · rw [hb] at hbody
      cases hbody
    · rw [hb] at hbody
      simp only [Option.some.injEq, step_result.next.injEq] at hbody
      subst hbody
      obtain ⟨h1, h2⟩ := ih _ (by simp only; omega) hiter'
      simp only [List.length_append, List.length_singleton] at h1 h2 ⊢
      constructor <;> split <;> omega
    · rw [hb] at hbody
      simp only [Option.some.injEq, step_result.next.injEq] at hbody
      subst hbody
      obtain ⟨h1, h2⟩ := ih _ (by simp only; omega) hiter'
      simp only [List.length_append, List.length_singleton] at h1 h2 ⊢
      constructor <;> split <;> first | omega | simp_all
    · rw [hb] at hbody
      simp only [Option.some.injEq, step_result.next.injEq] at hbody
      subst hbody
      have := argparser.lt_length_of_getElem? _ _ _ hh
      obtain ⟨h1, h2⟩ := ih _ (by simp only; omega) hiter'
      simp only [List.length_append, List.length_singleton] at h1 h2 ⊢
      constructor <;> split <;> omega
    · rw [hb] at hbody
      simp only [Option.some.injEq, step_result.next.injEq] at hbody
      subst hbody
      obtain ⟨h1, h2⟩ := ih _ (by simp only; omega) hiter'
      simp only at h1 h2 ⊢
      constructor <;> split <;> first | omega | simp_all

/-- C18: for every scan that ends normally, made of n passes, every token was under the
cursor of exactly one pass or was the value taken in one pass, and every pass made exactly
one invocation or dropped its token: the number of invocations plus the number of values
taken plus the number of passes without invocation is the number of tokens, and there are
at most as many invocations as tokens. Every pass of the scan does one of four things: it
invokes the handler of the option under the cursor with the empty string and moves the
cursor by one; it invokes that handler with the next token and moves the cursor by two; it
hands a token that is no registered name to the positional handler under the pointer; or
it drops such a token, the pointer being at the end, with no invocation. -/
theorem every_token_once {H : Type} (p : argparser H) (s : scan_state H)
    (hrun : p.run = some { state := s, outcome := .done }) :
    ∃ n, p.iterate n p.entry = some s ∧
      s.arg = p.args_.length ∧
      s.calls.length + p.values_taken n p.entry + p.discarded n p.entry = p.args_.length ∧
      n + p.values_taken n p.entry = p.args_.length ∧
      s.calls.length + p.discarded n p.entry = n ∧
      s.calls.length ≤ p.args_.length ∧
      ∀ k s0 s1 tok, p.iterate k p.entry = some s0 → p.args_[s0.arg]? = some tok →
        p.body s0 = some (.next s1) →
        (∃ opt, options_map.find p.options_ tok = some opt ∧ s1.arg = s0.arg + 1 ∧
            s1.calls = s0.calls ++ [(opt.handler, "")]) ∨
        (∃ opt v, options_map.find p.options_ tok = some opt ∧
            p.args_[s0.arg + 1]? = some v ∧ s1.arg = s0.arg + 2 ∧
            s1.calls = s0.calls ++ [(opt.handler, v)]) ∨
        (∃ h, options_map.find p.options_ tok = none ∧
            p.positionals_[s0.current_positional_]? = some h ∧ s1.arg = s0.arg + 1 ∧
            s1.calls = s0.calls ++ [(h, tok)]) ∨
        (options_map.find p.options_ tok = none ∧
            s0.current_positional_ = p.positionals_.length ∧ s1.arg = s0.arg + 1 ∧
            s1.calls = s0.calls) := by
  obtain ⟨r, n, hrun', hiter, -, -, hend⟩ := p.run_spec
  rw [hrun] at hrun'
  simp only [Option.some.injEq] at hrun'
  subst hrun'
  simp only at hiter hend
  have hlen : s.arg = p.args_.length := by
    rcases hend with ⟨-, h⟩ | ⟨t, opt, hout, -⟩
    · exact h
    · cases hout
  obtain ⟨h1, h2⟩ := p.roles_of_iterate n p.entry s (Nat.zero_le _) hiter
  have ha0 : p.entry.arg = 0 := rfl
  have hc0 : p.entry.calls.length = 0 := rfl
  rw [ha0] at h1
  rw [hc0] at h2
  refine ⟨n, hiter, hlen, by omega, by omega, by omega, by omega, ?_⟩
  intro k s0 s1 tok hk hcur hbody
  obtain ⟨-, hpos⟩ := p.iterate_inv k p.entry s0 (Nat.zero_le _) (Nat.zero_le _) hk
  rcases p.body_cases s0 tok hcur hpos with
    ⟨opt, -, -, -, hb⟩ | ⟨opt, hf, -, hb⟩ | ⟨opt, v, hf, hv, -, hb⟩ | ⟨h, hf, hh, hb⟩ |
    ⟨hf, hm, hb⟩
  · rw [hb] at hbody
    cases hbody
  · rw [hb] at hbody
    simp only [Option.some.injEq, step_result.next.injEq] at hbody
    subst hbody
    exact Or.inl ⟨opt, hf, rfl, rfl⟩
  · rw [hb] at hbody
    simp only [Option.some.injEq, step_result.next.injEq] at hbody
    subst hbody
    exact Or.inr (Or.inl ⟨opt, v, hf, hv, rfl, rfl⟩)
  · rw [hb] at hbody
    simp only [Option.some.injEq, step_result.next.injEq] at hbody
    subst hbody
    exact Or.inr (Or.inr (Or.inl ⟨h, hf, hh, rfl, rfl⟩))
  · rw [hb] at hbody
    simp only [Option.some.injEq, step_result.next.injEq] at hbody
    subst hbody
    exact Or.inr (Or.inr (Or.inr ⟨hf, hm, rfl, rfl⟩))

/-- C18 on the tokens ["-v", "a", "-o", "x", "b"], "-v" without argument, "-o" required,
one positional handler: four passes, three invocations, one value taken ("x"), one token
dropped ("b"), five tokens. -/
theorem every_token_once_witness :
    ((((argparser.of_tokens String ["-v", "a", "-o", "x", "b"]).reg
        ["-v"] .no_argument "V").reg ["-o"] .required_argument "O").pos "P").run
      = some { state := { arg := 5, current_positional_ := 1,
                          calls := [("V", ""), ("P", "a"), ("O", "x")] },
               outcome := .done } ∧
    argparser.values_taken
      ((((argparser.of_tokens String ["-v", "a", "-o", "x", "b"]).reg
        ["-v"] .no_argument "V").reg ["-o"] .required_argument "O").pos "P") 4
      { arg := 0, current_positional_ := 0, calls := [] } = 1 ∧
    argparser.discarded
      ((((argparser.of_tokens String ["-v", "a", "-o", "x", "b"]).reg
        ["-v"] .no_argument "V").reg ["-o"] .required_argument "O").pos "P") 4
      { arg := 0, current_positional_ := 0, calls := [] } = 1 ∧
    ∃ n, 3 + argparser.values_taken
        ((((argparser.of_tokens String ["-v", "a", "-o", "x", "b"]).reg
        ["-v"] .no_argument "V").reg ["-o"] .required_argument "O").pos "P") n
        { arg := 0, current_positional_ := 0, calls := [] }
      + argparser.discarded
        ((((argparser.of_tokens String ["-v", "a", "-o", "x", "b"]).reg
        ["-v"] .no_argument "V").reg ["-o"] .required_argument "O").pos "P") n
        { arg := 0, current_positional_ := 0, calls := [] } = 5 :=
  ⟨by decide, by decide, by decide,
    (every_token_once
      ((((argparser.of_tokens String ["-v", "a", "-o", "x", "b"]).reg
        ["-v"] .no_argument "V").reg ["-o"] .required_argument "O").pos "P")
      { arg := 5, current_positional_ := 1, calls := [("V", ""), ("P", "a"), ("O", "x")] }
      (by decide)).elim fun n h => ⟨n, h.2.2.1⟩⟩

/-! ## Handlers that throw -/

/-- A pass with handlers that can throw, in terms of the pass with handlers that return:
the same, unless the invocation that the pass makes throws. -/
theorem argparser.body_t_eq {H E : Type} (throws : H → String → Option E) (p : argparser H)
    (s : scan_state H) :
    p.body_t throws s
      = match p.body s with
        | none => none
        | some (.thrown e) => some (.thrown (.argument_required e))
        | some (.next s') =>
          match s'.calls.drop s.calls.length with
          | [] => some (.next s')
          | c :: _ =>
            match throws c.1 c.2 with
            | none => some (.next s')
            | some e => some (.thrown (.from_handler e)) := by
  unfold argparser.body argparser.body_t
  cases hc : p.args_[s.arg]? with
  | none => rfl
  | some tok =>
    cases hf : options_map.find p.options_ tok with
    | none =>
      simp only [hf, argparser.positional_case, argparser.positional_case_t]
      split
      · cases hh : p.positionals_[s.current_positional_]? with
        | none => rfl
        | some h =>
          cases ht : throws h tok <;>
            simp [scan_state.invoke_t, ht, step_result.incr_arg, step_result_t.incr_arg,
              scan_state.invoke]
      · simp [step_result.incr_arg, step_result_t.incr_arg]
    | some opt =>
      simp only [hf, argparser.option_case, argparser.option_case_t]
      cases opt.arg_type with
      | no_argument =>
        cases ht : throws opt.handler "" <;>
          simp [scan_state.invoke_t, ht, step_result.incr_arg, step_result_t.incr_arg,
            scan_state.invoke]
      | required_argument =>
        simp only
        split
        · cases hv : p.args_[s.arg + 1]? with
          | none => rfl
          | some v =>
            cases ht : throws opt.handler v <;>
              simp [scan_state.invoke_t, ht, step_result.incr_arg, step_result_t.incr_arg,
                scan_state.invoke]
        · simp [step_result.incr_arg, step_result_t.incr_arg]
      | optional_argument =>
        simp only
        split
        · cases hv : p.args_[s.arg + 1]? with
          | none => rfl
          | some v =>
            cases hfv : options_map.find p.options_ v with
            | none =>
              cases ht : throws opt.handler v <;>
                simp [hfv, scan_state.invoke_t, ht, step_result.incr_arg,
                  step_result_t.incr_arg, scan_state.invoke]
            | some d =>
              cases ht : throws opt.handler "" <;>
                simp [hfv, scan_state.invoke_t, ht, step_result.incr_arg,
                  step_result_t.incr_arg, scan_state.invoke]
        · cases ht : throws opt.handler "" <;>
            simp [scan_state.invoke_t, ht, step_result.incr_arg, step_result_t.incr_arg,
              scan_state.invoke]

theorem argparser.body_t_of_quiet {H E : Type} (throws : H → String → Option E)
    (p : argparser H) (s s1 : scan_state H)
    (hbody : p.body s = some (.next s1)) (hcalls : s1.calls = s.calls) :
    p.body_t throws s = some (.next s1) := by
  rw [p.body_t_eq throws s, hbody]
  simp [hcalls]

theorem argparser.body_t_of_call {H E : Type} (throws : H → String → Option E)
    (p : argparser H) (s s1 : scan_state H) (h : H) (v : String)
    (hbody : p.body s = some (.next s1)) (hcalls : s1.calls = s.calls ++ [(h, v)]) :
    p.body_t throws s
      = match throws h v with
        | none => some (.next s1)
        | some e => some (.thrown (.from_handler e)) := by
  rw [p.body_t_eq throws s, hbody]
  simp [hcalls]

theorem argparser.loop_t_of_next {H E : Type} (throws : H → String → Option E)
    (p : argparser H) (fuel : Nat) (s s' : scan_state H)
    (hcur : s.arg ≠ p.args_.length) (hbody : p.body_t throws s = some (.next s')) :
    p.loop_t throws (fuel + 1) s = p.loop_t throws fuel s' := by
  conv_lhs => unfold argparser.loop_t
  simp [hcur, hbody]

theorem argparser.loop_t_of_thrown {H E : Type} (throws : H → String → Option E)
    (p : argparser H) (fuel : Nat) (s : scan_state H) (e : exception_t E)
    (hcur : s.arg ≠ p.args_.length) (hbody : p.body_t throws s = some (.thrown e)) :
    p.loop_t throws (fuel + 1) s = some { state := s, outcome := .thrown e } := by
  conv_lhs => unfold argparser.loop_t
  simp [hcur, hbody]

/-- The first pass of a loop that has a result and does not start at the end of the
tokens. -/
theorem argparser.loop_succ_inv {H : Type} (p : argparser H) (fuel : Nat) (s : scan_state H)
    (r : scan_result H)
    (hcur : s.arg ≠ p.args_.length) (hloop : p.loop (fuel + 1) s = some r) :
    (∃ e, p.body s = some (.thrown e) ∧ r = { state := s, outcome := .thrown e }) ∨
    (∃ s1, p.body s = some (.next s1) ∧ p.loop fuel s1 = some r) := by
  unfold argparser.loop at hloop
  simp only [hcur, ne_eq, not_false_eq_true, if_true] at hloop
  cases hb : p.body s with
  | none => simp [hb] at hloop
  | some res =>
    cases res with
    | next s1 =>
      simp only [hb] at hloop
      exact Or.inr ⟨s1, rfl, hloop⟩
    | thrown e =>
      simp only [hb, Option.some.injEq] at hloop
      exact Or.inl ⟨e, rfl, hloop.symm⟩

/-- A pass adds one invocation to `calls` or none, and keeps the pointer inside
`positionals_`. -/
theorem argparser.body_next_calls {H : Type} (p : argparser H) (s s1 : scan_state H)
    (hpos : s.current_positional_ ≤ p.positionals_.length)
    (hbody : p.body s = some (.next s1)) :
    s1.current_positional_ ≤ p.positionals_.length ∧
    (s1.calls = s.calls ∨ ∃ h v, s1.calls = s.calls ++ [(h, v)]) := by
  obtain ⟨tok, hcur⟩ := p.cursor_of_body s _ hbody
  rcases p.body_cases s tok hcur hpos with
    ⟨opt, -, -, -, hb⟩ | ⟨opt, -, -, hb⟩ | ⟨opt, v, -, -, -, hb⟩ | ⟨h, -, hh, hb⟩ |
    ⟨-, -, hb⟩
  · rw [hb] at hbody
    cases hbody
  · rw [hb] at hbody
    simp only [Option.some.injEq, step_result.next.injEq] at hbody
    subst hbody
    exact ⟨hpos, Or.inr ⟨_, _, rfl⟩⟩
  · rw [hb] at hbody
    simp only [Option.some.injEq, step_result.next.injEq] at hbody
    subst hbody
    exact ⟨hpos, Or.inr ⟨_, _, rfl⟩⟩
  · rw [hb] at hbody
    simp only [Option.some.injEq, step_result.next.injEq] at hbody
    subst hbody
    have := argparser.lt_length_of_getElem? _ _ _ hh
    exact ⟨by simp only; omega, Or.inr ⟨_, _, rfl⟩⟩
  · rw [hb] at hbody
    simp only [Option.some.injEq, step_result.next.injEq] at hbody
    subst hbody
    exact ⟨hpos, Or.inl rfl⟩

/-- The loop only adds invocations at the end of `calls`. -/
theorem argparser.loop_calls_append {H : Type} (p : argparser H) (fuel : Nat)
    (s : scan_state H) (r : scan_result H)
    (hpos : s.current_positional_ ≤ p.positionals_.length)
    (hloop : p.loop fuel s = some r) :
    ∃ rest, r.state.calls = s.calls ++ rest := by
  induction fuel generalizing s with
  | zero =>
    by_cases hend : s.arg = p.args_.length
    · rw [p.loop_of_end 0 s hend] at hloop
      cases hloop
      exact ⟨[], by simp⟩
    · unfold argparser.loop at hloop
      simp [hend] at hloop
  | succ fuel ih =>
    by_cases hend : s.arg = p.args_.length
    · rw [p.loop_of_end _ s hend] at hloop
      cases hloop
      exact ⟨[], by simp⟩
    · rcases p.loop_succ_inv fuel s r hend hloop with ⟨e, -, hr⟩ | ⟨s1, hb, hl⟩
      · subst hr
        exact ⟨[], by simp⟩
      · obtain ⟨hpos1, hc⟩ := p.body_next_calls s s1 hpos hb
        obtain ⟨rest, hrest⟩ := ih s1 hpos1 hl
        rcases hc with hc | ⟨h, v, hc⟩
        · exact ⟨rest, by rw [hrest, hc]⟩
        · exact ⟨(h, v) :: rest, by rw [hrest, hc]; simp⟩

/-- When every handler returns, the loop for handlers that can throw is the loop for
handlers that return. -/
theorem argparser.loop_t_of_no_throw {H E : Type} (throws : H → String → Option E)
    (p : argparser H) (hquiet : ∀ h v, throws h v = none) (fuel : Nat) (s : scan_state H) :
    p.loop_t throws fuel s
      = (p.loop fuel s).map fun r =>
          { state := r.state,
            outcome := match r.outcome with
              | .done => .done
              | .thrown e => .thrown (.argument_required e) } := by
  induction fuel generalizing s with
  | zero =>
    unfold argparser.loop argparser.loop_t
    split <;> rfl
  | succ fuel ih =>
    unfold argparser.loop argparser.loop_t
    split
    · rw [p.body_t_eq throws s]
      cases hb : p.body s with
      | none => rfl
      | some res =>
        cases res with
        | thrown e => rfl
        | next s1 =>
          simp only
          cases hd : List.drop s.calls.length s1.calls with
          | nil => exact ih s1
          | cons c tl =>
            simp only [hquiet]
            exact ih s1
    · rfl

/-- When the invocations of the loop for handlers that return are `pre`, then one that
throws `e`, then `post`, and none of `pre` throws, the loop for handlers that can throw ends
by `e` with exactly the invocations `pre` made. -/
theorem argparser.loop_t_of_loop {H E : Type} (throws : H → String → Option E)
    (p : argparser H) (fuel : Nat) (s : scan_state H) (r : scan_result H)
    (pre post : List (H × String)) (h : H) (v : String) (e : E)
    (hpos : s.current_positional_ ≤ p.positionals_.length)
    (hloop : p.loop fuel s = some r)
    (hcalls : r.state.calls = s.calls ++ (pre ++ (h, v) :: post))
    (hpre : ∀ c ∈ pre, throws c.1 c.2 = none) (hfail : throws h v = some e) :
    ∃ st, p.loop_t throws fuel s
        = some { state := st, outcome := .thrown (.from_handler e) } ∧
      st.calls = s.calls ++ pre := by
  have hnot : ¬ s.calls = s.calls ++ (pre ++ (h, v) :: post) := by
    intro hc
    have hl := congrArg List.length hc
    simp only [List.length_append, List.length_cons] at hl
    omega
  induction fuel generalizing s pre with
  | zero =>
    by_cases hend : s.arg = p.args_.length
    · rw [p.loop_of_end 0 s hend] at hloop
      cases hloop
      exact absurd hcalls hnot
    · unfold argparser.loop at hloop
      simp [hend] at hloop
  | succ fuel ih =>
    by_cases hend : s.arg = p.args_.length
    · rw [p.loop_of_end _ s hend] at hloop
      cases hloop
      exact absurd hcalls hnot
    · rcases p.loop_succ_inv fuel s r hend hloop with ⟨e', -, hr⟩ | ⟨s1, hb, hl⟩
      · subst hr
        exact absurd hcalls hnot
      · obtain ⟨hpos1, hc⟩ := p.body_next_calls s s1 hpos hb
        rcases hc with hc | ⟨h0, v0, hc⟩
        · rw [p.loop_t_of_next throws fuel s s1 hend (p.body_t_of_quiet throws s s1 hb hc)]
          have hnot1 : ¬ s1.calls = s1.calls ++ (pre ++ (h, v) :: post) := by
            rw [hc]
            exact hnot
          obtain ⟨st, hst, hstc⟩ := ih s1 pre hpos1 hl (by rw [hc]; exact hcalls) hpre hnot1
          exact ⟨st, hst, by rw [hstc, hc]⟩
        · obtain ⟨rest, hrest⟩ := p.loop_calls_append fuel s1 r hpos1 hl
          have heq : pre ++ (h, v) :: post = (h0, v0) :: rest := by
            have h2 : s.calls ++ (pre ++ (h, v) :: post) = s.calls ++ ((h0, v0) :: rest) := by
              rw [← hcalls, hrest, hc]
              simp
            exact List.append_cancel_left h2
          have hbt := p.body_t_of_call throws s s1 h0 v0 hb hc
          cases pre with
          | nil =>
            simp only [List.nil_append, List.cons.injEq, Prod.mk.injEq] at heq
            obtain ⟨⟨hh, hv⟩, -⟩ := heq
            subst hh hv
            rw [hfail] at hbt
            exact ⟨s, p.loop_t_of_thrown throws fuel s _ hend hbt, by simp⟩
          | cons c pre' =>
            simp only [List.cons_append, List.cons.injEq] at heq
            obtain ⟨hc0, hrest'⟩ := heq
            have hq : throws h0 v0 = none := by
              have := hpre c (List.mem_cons_self _ _)
              rw [hc0] at this
              exact this
            rw [hq] at hbt
            rw [p.loop_t_of_next throws fuel s s1 hend hbt]
            have hcalls1 : r.state.calls = s1.calls ++ (pre' ++ (h, v) :: post) := by
              rw [hrest, hrest']
            have hnot1 : ¬ s1.calls = s1.calls ++ (pre' ++ (h, v) :: post) := by
              intro hcc
              have hl1 := congrArg List.length hcc
              simp only [List.length_append, List.length_cons] at hl1
              omega
            obtain ⟨st, hst, hstc⟩ := ih s1 pre' hpos1 hl hcalls1
              (fun c' hc' => hpre c' (List.mem_cons_of_mem _ hc')) hnot1
            exact ⟨st, hst, by rw [hstc, hc, hc0]; simp⟩

/-- C19: with handlers that can throw, take the invocations that the scan makes when every
handler returns; when one of them throws e and none before it throws, the scan ends by
exactly e, as the handler's exception and not as the one for a missing argument; the
invocations that returned before are exactly the ones before it, in order; and nothing is
invoked after it. -/
theorem handler_failure_passes_through {H E : Type} (throws : H → String → Option E)
    (p : argparser H) (r : scan_result H) (pre post : List (H × String)) (h : H)
    (v : String) (e : E)
    (hrun : p.run = some r)
    (hcalls : r.state.calls = pre ++ (h, v) :: post)
    (hpre : ∀ c ∈ pre, throws c.1 c.2 = none) (hfail : throws h v = some e) :
    ∃ st, p.run_t throws = some { state := st, outcome := .thrown (.from_handler e) } ∧
      st.calls = pre := by
  obtain ⟨st, hst, hstc⟩ := p.loop_t_of_loop throws p.args_.length p.entry r pre post h v e
    (Nat.zero_le _) hrun (by rw [hcalls]; rfl) hpre hfail
  exact ⟨st, hst, by rw [hstc]; rfl⟩

/-- C19 on the tokens ["-v", "a", "-o", "x"] with the handlers V, O and the positional
handler P, where P throws "boom": the scan ends by "boom" after the invocation of V alone;
O is not invoked. -/
theorem handler_failure_passes_through_witness :
    argparser.run_t (fun h _ => if h = "P" then some "boom" else none)
        ((((argparser.of_tokens String ["-v", "a", "-o", "x"]).reg ["-v"] .no_argument "V").reg
        ["-o"] .required_argument "O").pos "P")
      = some { state := { arg := 1, current_positional_ := 0, calls := [("V", "")] },
               outcome := .thrown (.from_handler "boom") } ∧
    ∃ st, argparser.run_t (fun h _ => if h = "P" then some "boom" else none)
          ((((argparser.of_tokens String ["-v", "a", "-o", "x"]).reg ["-v"] .no_argument "V").reg
        ["-o"] .required_argument "O").pos "P")
        = some { state := st, outcome := .thrown (.from_handler "boom") } ∧
      st.calls = [("V", "")] :=
  ⟨by decide,
    handler_failure_passes_through (fun h _ => if h = "P" then some "boom" else none)
      ((((argparser.of_tokens String ["-v", "a", "-o", "x"]).reg ["-v"] .no_argument "V").reg
        ["-o"] .required_argument "O").pos "P")
      { state := { arg := 4, current_positional_ := 1,
                   calls := [("V", ""), ("P", "a"), ("O", "x")] },
        outcome := .done }
      [("V", "")] [("O", "x")] "P" "a" "boom"
      (by decide) (by decide) (by decide) (by decide)⟩

end getopt
